import Mathlib

/-!
# Verification of the xcomish simulation core

Shallow embedding of the simulation core of the `xcomish` tile-tactics
repository (`src/xcomish/`): the spatial grid with its occupancy index and
fog-of-war state (`grid.py`), the two pathfinding functions (`pathing.py`),
the component store with its cached views (`ecs.py`), and the motion system
(`systems/motion.py`).

Conventions of the embedding:
* Python `int` is modelled as `ℤ` (grid coordinates) or `ℕ` (entity ids,
  action points, counters that the code keeps non-negative).
* Python `float` arithmetic on the motion budget is modelled as `ℚ`; the
  only operations used on it are subtraction of `1.0` and comparisons.
* A Python `dict` used as a finite map is modelled either as a function
  into `Option` (when the claims never enumerate it) or as an association
  list with replace-on-insert semantics (when enumeration order matters).
* `pygame` surfaces and the render-only fields of `Grid` are omitted: no
  claim mentions them and they are never read by the modelled code.
-/

namespace Xcomish

/-- A grid cell `(x, y)`, Python's `Tuple[int, int]`. -/
abbrev Cell : Type := ℤ × ℤ

/-- Entity identifier. -/
abbrev EId : Type := ℕ

/-! ## Grid (`grid.py`)

`Grid.walkable`/`Grid.opaque` are `List[List[bool]]` matrices in the source,
but every access in the modelled code is guarded by `in_bounds`, so they are
embedded as total boolean functions of the coordinates.  `occupants` is a
`Dict[(int,int), int]`, embedded as `Cell → Option EId`; the fog sets
`visible`/`explored` are Python sets of cells, embedded as `Finset Cell`. -/

structure Grid where
  w : ℤ
  h : ℤ
  walkable : ℤ → ℤ → Bool
  opq : ℤ → ℤ → Bool
  occupants : Cell → Option EId
  visible : Finset Cell
  explored : Finset Cell

namespace Grid

/-- `Grid.in_bounds`. -/
def inBounds (g : Grid) (x y : ℤ) : Bool :=
  decide (0 ≤ x) && decide (x < g.w) && decide (0 ≤ y) && decide (y < g.h)

/-- `Grid.is_walkable`: in bounds, terrain-walkable and unoccupied. -/
def isWalkable (g : Grid) (x y : ℤ) : Bool :=
  g.inBounds x y && g.walkable y x && decide (g.occupants (x, y) = none)

/-- `Grid.is_blocked`: out of bounds or terrain-non-walkable. -/
def isBlocked (g : Grid) (x y : ℤ) : Bool :=
  !g.inBounds x y || !g.walkable y x

/-- `Grid.is_opaque`: out of bounds counts as opaque. -/
def isOpaque (g : Grid) (x y : ℤ) : Bool :=
  !g.inBounds x y || g.opq y x

/-- `Grid.neighbors4`, in the source's yield order
(left, right, up, down), each guarded by the border test. -/
def neighbors4 (g : Grid) (x y : ℤ) : List Cell :=
  (if 0 < x then [(x - 1, y)] else []) ++
  (if x < g.w - 1 then [(x + 1, y)] else []) ++
  (if 0 < y then [(x, y - 1)] else []) ++
  (if y < g.h - 1 then [(x, y + 1)] else [])

/-- `Grid.occupy`: returns `(success, updated occupants map)`.
Fails without mutating when the cell is held by a different entity. -/
def occupy (occ : Cell → Option EId) (x y : ℤ) (entity : EId) :
    Bool × (Cell → Option EId) :=
  if (occ (x, y)).isSome ∧ occ (x, y) ≠ some entity then
    (false, occ)
  else
    (true, fun c => if c = (x, y) then some entity else occ c)

/-- `Grid.vacate`: removes the claim only if held by that exact entity. -/
def vacate (occ : Cell → Option EId) (x y : ℤ) (entity : EId) :
    Cell → Option EId :=
  if occ (x, y) = some entity then
    (fun c => if c = (x, y) then none else occ c)
  else occ

end Grid

/-! ### C2: `occupy` success condition, failure leaves state unchanged -/

/-- **C2.** `occupy(cell, entity)` succeeds and records the claim iff the
cell is unclaimed or already claimed by the same entity; when held by a
different entity it returns `false` and leaves the occupancy mapping
unchanged; and the mapping never associates two distinct entities with one
cell (it is single-valued by construction, as is the Python `dict`). -/
theorem occupy_spec (occ : Cell → Option EId) (x y : ℤ) (e : EId) :
    ((Grid.occupy occ x y e).1 = true ↔
      (occ (x, y) = none ∨ occ (x, y) = some e)) ∧
    ((Grid.occupy occ x y e).1 = true →
      (Grid.occupy occ x y e).2 =
        (fun c => if c = (x, y) then some e else occ c)) ∧
    ((Grid.occupy occ x y e).1 = false → (Grid.occupy occ x y e).2 = occ) ∧
    (∀ c e₁ e₂, (Grid.occupy occ x y e).2 c = some e₁ →
      (Grid.occupy occ x y e).2 c = some e₂ → e₁ = e₂) := by
  unfold Grid.occupy
  by_cases hcase : (occ (x, y)).isSome ∧ occ (x, y) ≠ some e
  · rw [if_pos hcase]
    refine ⟨?_, ?_, ?_, ?_⟩
    · constructor
      · intro h; cases h
      · rintro (hnone | hsame)
        · rw [hnone] at hcase; exact absurd hcase.1 (by simp)
        · exact absurd hsame hcase.2
    · intro h; cases h
    · intro _; rfl
    · intro c e₁ e₂ h₁ h₂; rw [h₁] at h₂; exact Option.some.inj h₂
  · rw [if_neg hcase]
    refine ⟨?_, ?_, ?_, ?_⟩
    · simp only [true_iff]
      rcases not_and_or.mp hcase with hns | hsame
      · left; exact Option.not_isSome_iff_eq_none.mp hns
      · right; exact not_not.mp hsame
    · intro _; rfl
    · intro h; cases h
    · intro c e₁ e₂ h₁ h₂
      simp only at h₁ h₂
      rw [h₁] at h₂; exact Option.some.inj h₂

/-! ## Line of sight and fog of war (`grid.py`)

`Grid.bresenham` is a `while True` generator; it is embedded with a fuel
parameter.  The fuel `|x1-x0| + |y1-y0| + 1` bounds the number of yields of
the source loop (each iteration moves `x` or `y` one step toward the
endpoint), and none of the claims depend on the exact cell list, only on
the fog bookkeeping around it. -/

/-- Loop body of `Grid.bresenham` (state: current `x y err`). -/
def bresLoop (x1 y1 sx sy dx dy : ℤ) : ℕ → ℤ → ℤ → ℤ → List Cell
  | 0, _, _, _ => []
  | fuel + 1, x, y, err =>
    (x, y) ::
      (if x = x1 ∧ y = y1 then []
       else
        let e2 := 2 * err
        let err₁ := if e2 ≥ dy then err + dy else err
        let x' := if e2 ≥ dy then x + sx else x
        let err₂ := if e2 ≤ dx then err₁ + dx else err₁
        let y' := if e2 ≤ dx then y + sy else y
        bresLoop x1 y1 sx sy dx dy fuel x' y' err₂)

/-- `Grid.bresenham`: grid cells along the line from `(x0,y0)` to `(x1,y1)`. -/
def bresenham (x0 y0 x1 y1 : ℤ) : List Cell :=
  let dx := |x1 - x0|
  let dy := -|y1 - y0|
  let sx : ℤ := if x0 < x1 then 1 else -1
  let sy : ℤ := if y0 < y1 then 1 else -1
  bresLoop x1 y1 sx sy dx dy (dx - dy + 1).toNat x0 y0 (dx + dy)

namespace Grid

/-- `Grid.has_los`: opaque tiles between the endpoints block sight;
the endpoints themselves are exempt. -/
def hasLos (g : Grid) (x0 y0 x1 y1 : ℤ) : Bool :=
  (bresenham x0 y0 x1 y1).all fun c =>
    decide (c = (x0, y0)) || decide (c = (x1, y1)) || !g.isOpaque c.1 c.2

end Grid

/-- The integers from `a` (inclusive) to `b` (exclusive), `range(a, b)`. -/
def intRange (a b : ℤ) : List ℤ :=
  (List.range (b - a).toNat).map fun (i : ℕ) => a + (i : ℤ)

namespace Grid

/-- The cells the `reveal_from` double loop adds: cells of the radius
bounding box (clamped to the map) within squared Euclidean distance
`radius²` of the origin and with line of sight to it. -/
def revealCells (g : Grid) (x0 y0 radius : ℤ) : List Cell :=
  (intRange (max 0 (y0 - radius)) (min g.h (y0 + radius + 1))).flatMap fun y =>
    (intRange (max 0 (x0 - radius)) (min g.w (x0 + radius + 1))).filterMap fun x =>
      if (x - x0) * (x - x0) + (y - y0) * (y - y0) ≤ radius * radius ∧
          g.hasLos x0 y0 x y then
        some (x, y)
      else none

/-- `Grid.reveal_from`: clears `visible`, then adds every qualifying cell
to both `visible` and `explored`. -/
def revealFrom (g : Grid) (x0 y0 radius : ℤ) : Grid :=
  { g with
    visible := (g.revealCells x0 y0 radius).toFinset
    explored := g.explored ∪ (g.revealCells x0 y0 radius).toFinset }

end Grid

/-! ### C10: visibility is a subset of explored; explored grows monotonically -/

/-- **C10.** After every `reveal_from` call the visible set is a subset of
the explored set, and every previously explored cell remains explored (so
over any sequence of calls `explored` grows monotonically even for cells
that drop out of `visible`). -/
theorem revealFrom_visible_subset_explored_and_mono
    (g : Grid) (x0 y0 radius : ℤ) :
    (g.revealFrom x0 y0 radius).visible ⊆ (g.revealFrom x0 y0 radius).explored ∧
    g.explored ⊆ (g.revealFrom x0 y0 radius).explored := by
  refine ⟨?_, ?_⟩
  · exact Finset.subset_union_right
  · exact Finset.subset_union_left

/-! ## Component store (`ecs.py`)

Python dicts that the view cache enumerates are embedded as association
lists with replace-on-insert semantics (`aupdate`), which preserves the
"at most one entry per key" shape of a dict.  Component types are opaque
tags (`ℕ`) and component payloads are opaque values (`ℕ`): the cache
machinery never inspects either.  The `CacheStats` hit/miss counters are
omitted: they are diagnostics that no modelled code reads.

A `frozenset` view key is represented canonically as a strictly sorted
list of component types (`canonKey`). -/

abbrev CompTy : Type := ℕ

/-- Opaque component payload. -/
abbrev Val : Type := ℕ

/-- Association-list lookup (first match), `dict.get`. -/
def alookup {α β : Type} [DecidableEq α] : List (α × β) → α → Option β
  | [], _ => none
  | (k, v) :: t, a => if a = k then some v else alookup t a

/-- Association-list insert-or-replace, `d[k] = v`. -/
def aupdate {α β : Type} [DecidableEq α] : List (α × β) → α → β → List (α × β)
  | [], k, v => [(k, v)]
  | (k', v') :: t, k, v =>
    if k = k' then (k, v) :: t else (k', v') :: aupdate t k v

/-- Association-list delete, `del d[k]`. -/
def adelete {α β : Type} [DecidableEq α] (m : List (α × β)) (k : α) :
    List (α × β) :=
  m.filter fun p => p.1 ≠ k

/-- Keys of an association list. -/
def akeys {α β : Type} (m : List (α × β)) : List α := m.map Prod.fst

/-- A per-type component store, `Dict[int, Any]`. -/
abbrev StoreA : Type := List (EId × Val)

/-- Canonical representation of a `frozenset` view key. -/
abbrev VKey : Type := List CompTy

/-- A cached view result: entity ids and parallel component rows. -/
abbrev VRes : Type := List EId × List (List Val)

/-- `frozenset(comp_types)` as a canonical strictly-sorted list. -/
def canonKey (ts : List CompTy) : VKey :=
  List.insertionSort (· ≤ ·) ts.dedup

/-- The `World` state of `ecs.py` (diagnostic counters omitted). -/
structure World where
  nextEid : ℕ
  stores : List (CompTy × StoreA)
  viewCache : List (VKey × VRes)
  viewDirty : List (VKey × Bool)
  compToViews : List (CompTy × List VKey)

namespace World

/-- The world built by `World.__init__`. -/
def init : World := ⟨1, [], [], [], []⟩

/-- `World._mark_dirty_for` over an explicit key list. -/
def markDirty (vd : List (VKey × Bool)) (keys : List VKey) :
    List (VKey × Bool) :=
  keys.foldl (fun vd k => aupdate vd k true) vd

/-- `World._mark_dirty_for comp_type`. -/
def markDirtyFor (w : World) (t : CompTy) : World :=
  { w with viewDirty := markDirty w.viewDirty ((alookup w.compToViews t).getD []) }

/-- `World.create`. -/
def create (w : World) : EId × World :=
  (w.nextEid, { w with nextEid := w.nextEid + 1 })

/-- `World.add`: insert/overwrite the component, then invalidate. -/
def add (w : World) (e : EId) (t : CompTy) (v : Val) : World :=
  let store := (alookup w.stores t).getD []
  markDirtyFor { w with stores := aupdate w.stores t (aupdate store e v) } t

/-- `World.get`. -/
def get (w : World) (e : EId) (t : CompTy) : Option Val :=
  (alookup w.stores t).bind fun st => alookup st e

/-- `World.remove`: delete if present (an empty store is falsy in
`if store and entity in store`, hence also a no-op). -/
def remove (w : World) (e : EId) (t : CompTy) : World :=
  match alookup w.stores t with
  | none => w
  | some st =>
    if st ≠ [] ∧ (alookup st e).isSome then
      markDirtyFor { w with stores := aupdate w.stores t (adelete st e) } t
    else w

/-- Dropping entity `e` from one store when present, `del store[entity]`
guarded by `if entity in store`. -/
def purgeStore (e : EId) (st : StoreA) : StoreA :=
  if (alookup st e).isSome then adelete st e else st

/-- `World.destroy`: drop the entity from every store that contains it,
invalidating each such component type. -/
def destroy (w : World) (e : EId) : World :=
  let touched := (w.stores.filter fun p => (alookup p.2 e).isSome).map Prod.fst
  { w with
    stores := w.stores.map fun p => (p.1, purgeStore e p.2)
    viewDirty := touched.foldl
      (fun vd t => markDirty vd ((alookup w.compToViews t).getD [])) w.viewDirty }

/-- The entity-set intersection of the view build, as a list:
`entities = ids if entities is None else entities & ids`, with
`sorted(entities or ())` handled by the caller. -/
def interEnts (stores : List (CompTy × StoreA)) : List CompTy → List EId
  | [] => []
  | t :: rest =>
    rest.foldl
      (fun acc t' =>
        acc.filter fun e => (alookup ((alookup stores t').getD []) e).isSome)
      (akeys ((alookup stores t).getD []))

/-- Rebuilding a view result from scratch against the given stores: the
`# Build` branch of `World.view` (`sorted` intersection, one component row
per entity in request order; the row lookups are total in the source
because every listed entity is present in every requested store). -/
def buildRes (stores : List (CompTy × StoreA)) (ts : List CompTy) : VRes :=
  let ents := List.insertionSort (· ≤ ·) (interEnts stores ts)
  (ents, ents.map fun e =>
    ts.map fun t => (alookup ((alookup stores t).getD []) e).getD 0)

/-- One registration step of the dirty mapping:
`if key not in comp_to_views[ct]: comp_to_views[ct].append(key)`. -/
def register1 (m : List (CompTy × List VKey)) (t : CompTy) (k : VKey) :
    List (CompTy × List VKey) :=
  if k ∈ (alookup m t).getD [] then m
  else aupdate m t ((alookup m t).getD [] ++ [k])

/-- Registration of a key for each of its component types. -/
def registerAll (m : List (CompTy × List VKey)) (key : VKey) :
    List (CompTy × List VKey) :=
  key.foldl (fun m t => register1 m t key) m

/-- The state after the rebuild branch of `World.view`: cache the fresh
result under the `frozenset` key, clear its dirty bit, and register the key
as a dependent of each of its component types. -/
def viewStore (w : World) (ts : List CompTy) : World :=
  { w with
    viewCache := aupdate w.viewCache (canonKey ts) (buildRes w.stores ts)
    viewDirty := aupdate w.viewDirty (canonKey ts) false
    compToViews := registerAll w.compToViews (canonKey ts) }

/-- `World.view`: serve a clean cached result for the `frozenset` key
(`dirty` defaults to `True` for a never-built key), else rebuild. -/
def view (w : World) (ts : List CompTy) : VRes × World :=
  match alookup w.viewCache (canonKey ts) with
  | some res =>
    if (alookup w.viewDirty (canonKey ts)).getD true then
      (buildRes w.stores ts, viewStore w ts)
    else (res, w)
  | none => (buildRes w.stores ts, viewStore w ts)

end World

/-- The mutation/query operations of claim C1. -/
inductive WOp : Type
  | add (e : EId) (t : CompTy) (v : Val)
  | wremove (e : EId) (t : CompTy)
  | destroy (e : EId)
  | viewq (ts : List CompTy)

/-- Apply one operation (a query's result is discarded here; the claim
theorem inspects the result of a query run at an arbitrary point). -/
def applyOp (w : World) : WOp → World
  | .add e t v => w.add e t v
  | .wremove e t => w.remove e t
  | .destroy e => w.destroy e
  | .viewq ts => (w.view ts).2

/-- Run a sequence of operations from a world. -/
def runOps (w : World) (ops : List WOp) : World :=
  ops.foldl applyOp w

/-! ### Association-list and registration lemmas -/

theorem alookup_aupdate {α β : Type} [DecidableEq α]
    (m : List (α × β)) (k a : α) (v : β) :
    alookup (aupdate m k v) a = if a = k then some v else alookup m a := by
  induction m with
  | nil => simp [aupdate, alookup]
  | cons p t ih =>
    obtain ⟨k', v'⟩ := p
    by_cases hk : k = k'
    · subst hk
      by_cases ha : a = k <;> simp [aupdate, alookup, ha]
    · by_cases ha : a = k'
      · subst ha
        simp [aupdate, hk, alookup, Ne.symm hk]
      · simp [aupdate, hk, alookup, ha, ih]

theorem alookup_eq_some_mem {α β : Type} [DecidableEq α]
    {m : List (α × β)} {a : α} {b : β} (h : alookup m a = some b) :
    (a, b) ∈ m := by
  induction m with
  | nil => cases h
  | cons p t ih =>
    obtain ⟨k, v⟩ := p
    by_cases ha : a = k
    · subst ha
      rw [alookup, if_pos rfl] at h
      exact List.mem_cons.mpr (Or.inl (by rw [Option.some.inj h]))
    · rw [alookup, if_neg ha] at h
      exact List.mem_cons.mpr (Or.inr (ih h))

theorem mem_akeys_iff {α β : Type} [DecidableEq α] (m : List (α × β)) (a : α) :
    a ∈ akeys m ↔ (alookup m a).isSome := by
  induction m with
  | nil => simp [akeys, alookup]
  | cons p t ih =>
    obtain ⟨k, v⟩ := p
    by_cases ha : a = k <;> simp [akeys, alookup, ha] at ih ⊢
    exact ih

theorem alookup_map_val {α β : Type} [DecidableEq α]
    (m : List (α × β)) (f : β → β) (a : α) :
    alookup (m.map fun p => (p.1, f p.2)) a = (alookup m a).map f := by
  induction m with
  | nil => simp [alookup]
  | cons p t ih =>
    obtain ⟨k, v⟩ := p
    by_cases ha : a = k <;> simp [alookup, ha, ih]

namespace World

theorem markDirty_alookup (keys : List VKey) (vd : List (VKey × Bool)) (a : VKey) :
    alookup (markDirty vd keys) a =
      if a ∈ keys then some true else alookup vd a := by
  induction keys generalizing vd with
  | nil => simp [markDirty]
  | cons k ks ih =>
    show alookup (markDirty (aupdate vd k true) ks) a = _
    rw [ih]
    by_cases hks : a ∈ ks
    · simp [hks]
    · by_cases hk : a = k <;> simp [hks, hk, alookup_aupdate]

theorem foldl_markDirty_alookup (f : CompTy → List VKey) (l : List CompTy)
    (vd : List (VKey × Bool)) (a : VKey) :
    alookup (l.foldl (fun vd t => markDirty vd (f t)) vd) a =
      if ∃ t ∈ l, a ∈ f t then some true else alookup vd a := by
  induction l generalizing vd with
  | nil => simp
  | cons t ts ih =>
    show alookup (List.foldl _ (markDirty vd (f t)) ts) a = _
    rw [ih, markDirty_alookup]
    by_cases hts : ∃ t' ∈ ts, a ∈ f t'
    · simp [hts]
    · by_cases ht : a ∈ f t <;> simp [hts, ht]

theorem register1_alookup_ne (m : List (CompTy × List VKey)) (t : CompTy)
    (k : VKey) (t' : CompTy) (h : t' ≠ t) :
    alookup (register1 m t k) t' = alookup m t' := by
  unfold register1
  split
  · rfl
  · rw [alookup_aupdate, if_neg h]

theorem register1_self_mem (m : List (CompTy × List VKey)) (t : CompTy)
    (k : VKey) : k ∈ (alookup (register1 m t k) t).getD [] := by
  unfold register1
  split
  · assumption
  · rw [alookup_aupdate, if_pos rfl]
    simp

theorem register1_mono (m : List (CompTy × List VKey)) (t : CompTy) (k : VKey)
    (t' : CompTy) (x : VKey) (hx : x ∈ (alookup m t').getD []) :
    x ∈ (alookup (register1 m t k) t').getD [] := by
  by_cases h : t' = t
  · subst h
    unfold register1
    split
    · exact hx
    · rw [alookup_aupdate, if_pos rfl]
      simp only [Option.getD_some, List.mem_append]
      exact Or.inl hx
  · rwa [register1_alookup_ne m t k t' h]

theorem foldl_register_mono (key : VKey) (l : List CompTy)
    (m : List (CompTy × List VKey)) (t' : CompTy) (x : VKey)
    (hx : x ∈ (alookup m t').getD []) :
    x ∈ (alookup (l.foldl (fun m t => register1 m t key) m) t').getD [] := by
  induction l generalizing m with
  | nil => exact hx
  | cons t ts ih => exact ih _ (register1_mono m t key t' x hx)

theorem registerAll_mono (m : List (CompTy × List VKey)) (key : VKey)
    (t' : CompTy) (x : VKey) (hx : x ∈ (alookup m t').getD []) :
    x ∈ (alookup (registerAll m key) t').getD [] :=
  foldl_register_mono key key m t' x hx

theorem foldl_register_self (key : VKey) (l : List CompTy)
    (m : List (CompTy × List VKey)) :
    ∀ t ∈ l, key ∈ (alookup (l.foldl (fun m t => register1 m t key) m) t).getD [] := by
  induction l generalizing m with
  | nil => intro t ht; cases ht
  | cons t₀ ts ih =>
    intro t ht
    rcases List.mem_cons.mp ht with rfl | hts
    · exact foldl_register_mono key ts _ t key (register1_self_mem m t key)
    · exact ih _ t hts

theorem registerAll_self (m : List (CompTy × List VKey)) (key : VKey) :
    ∀ t ∈ key, key ∈ (alookup (registerAll m key) t).getD [] :=
  foldl_register_self key key m

/-! ### Rebuild locality: a view result depends only on the stores of the
requested component types -/

theorem interEnts_congr (s₁ s₂ : List (CompTy × StoreA)) (ts : List CompTy)
    (h : ∀ t ∈ ts, alookup s₁ t = alookup s₂ t) :
    interEnts s₁ ts = interEnts s₂ ts := by
  cases ts with
  | nil => rfl
  | cons t rest =>
    simp only [interEnts]
    rw [h t (List.mem_cons_self t rest)]
    exact List.foldl_ext _ _ _ fun acc t' ht' => by
      rw [h t' (List.mem_cons_of_mem _ ht')]

theorem buildRes_congr (s₁ s₂ : List (CompTy × StoreA)) (ts : List CompTy)
    (h : ∀ t ∈ ts, alookup s₁ t = alookup s₂ t) :
    buildRes s₁ ts = buildRes s₂ ts := by
  unfold buildRes
  rw [interEnts_congr s₁ s₂ ts h]
  refine congrArg _ ?_
  refine List.map_congr_left fun e he => ?_
  exact List.map_congr_left fun t ht => by rw [h t ht]

/-! ### The cache-coherence invariant -/

/-- Every clean cache entry equals a from-scratch rebuild for its key, and
its key is registered as a dependent of each of its component types. -/
def CacheOK (w : World) : Prop :=
  ∀ key res, alookup w.viewCache key = some res →
    alookup w.viewDirty key = some false →
      res = buildRes w.stores key ∧
      ∀ t ∈ key, key ∈ (alookup w.compToViews t).getD []

theorem cacheOK_init : CacheOK init := by
  intro key res h
  simp [init, alookup] at h

theorem cacheOK_add (w : World) (e : EId) (t : CompTy) (v : Val)
    (hw : CacheOK w) : CacheOK (w.add e t v) := by
  intro key res hc hd
  simp only [add, markDirtyFor] at hc hd ⊢
  rw [markDirty_alookup] at hd
  by_cases hreg : key ∈ (alookup w.compToViews t).getD []
  · rw [if_pos hreg] at hd; cases hd
  · rw [if_neg hreg] at hd
    obtain ⟨hres, hkreg⟩ := hw key res hc hd
    have ht : t ∉ key := fun hmem => hreg (hkreg t hmem)
    refine ⟨?_, hkreg⟩
    rw [hres]
    exact buildRes_congr _ _ key fun t' ht' => by
      rw [alookup_aupdate, if_neg (by intro heq; exact ht (heq ▸ ht'))]

theorem cacheOK_remove (w : World) (e : EId) (t : CompTy)
    (hw : CacheOK w) : CacheOK (w.remove e t) := by
  unfold remove
  split
  · exact hw
  · split
    · intro key res hc hd
      simp only [markDirtyFor] at hc hd ⊢
      rw [markDirty_alookup] at hd
      by_cases hreg : key ∈ (alookup w.compToViews t).getD []
      · rw [if_pos hreg] at hd; cases hd
      · rw [if_neg hreg] at hd
        obtain ⟨hres, hkreg⟩ := hw key res hc hd
        have ht : t ∉ key := fun hmem => hreg (hkreg t hmem)
        refine ⟨?_, hkreg⟩
        rw [hres]
        exact buildRes_congr _ _ key fun t' ht' => by
          rw [alookup_aupdate, if_neg (by intro heq; exact ht (heq ▸ ht'))]
    · exact hw

theorem cacheOK_destroy (w : World) (e : EId)
    (hw : CacheOK w) : CacheOK (w.destroy e) := by
  intro key res hc hd
  simp only [destroy] at hc hd ⊢
  rw [foldl_markDirty_alookup] at hd
  by_cases htouch :
      ∃ t ∈ (w.stores.filter fun p => (alookup p.2 e).isSome).map Prod.fst,
        key ∈ (alookup w.compToViews t).getD []
  · rw [if_pos htouch] at hd; cases hd
  · rw [if_neg htouch] at hd
    obtain ⟨hres, hkreg⟩ := hw key res hc hd
    refine ⟨?_, hkreg⟩
    rw [hres]
    refine buildRes_congr _ _ key fun t' ht' => ?_
    rw [alookup_map_val]
    cases hst : alookup w.stores t' with
    | none => rfl
    | some st =>
      have hnot : ¬(alookup st e).isSome := by
        intro hsome
        refine htouch ⟨t', ?_, hkreg t' ht'⟩
        simp only [List.mem_map, List.mem_filter]
        exact ⟨(t', st), ⟨alookup_eq_some_mem hst, by simpa using hsome⟩, rfl⟩
      simp [purgeStore, hnot]

theorem canonKey_eq_self {ts : List CompTy} (hts : List.Sorted (· < ·) ts) :
    canonKey ts = ts := by
  unfold canonKey
  rw [List.dedup_eq_self.mpr hts.nodup]
  have hle : List.Sorted (· ≤ ·) ts := hts.imp fun h => le_of_lt h
  exact hle.insertionSort_eq

/-- The rebuild branch of `view` restores the invariant when the request
order is the canonical one. -/
theorem cacheOK_rebuilt (w : World) (ts : List CompTy)
    (hts : List.Sorted (· < ·) ts) (hw : CacheOK w) :
    CacheOK (viewStore w ts) := by
  intro key res hc hd
  simp only [viewStore] at hc hd ⊢
  rw [alookup_aupdate] at hc hd
  by_cases hk : key = canonKey ts
  · rw [if_pos hk] at hc
    refine ⟨?_, ?_⟩
    · rw [hk, canonKey_eq_self hts, Option.some.inj hc.symm]
    · rw [hk]
      exact registerAll_self w.compToViews (canonKey ts)
  · rw [if_neg hk] at hc hd
    obtain ⟨hres, hreg⟩ := hw key res hc hd
    exact ⟨hres, fun t ht => registerAll_mono _ _ t key (hreg t ht)⟩

theorem cacheOK_view (w : World) (ts : List CompTy)
    (hts : List.Sorted (· < ·) ts) (hw : CacheOK w) :
    CacheOK (w.view ts).2 := by
  unfold view
  split
  · split
    · exact cacheOK_rebuilt w ts hts hw
    · exact hw
  · exact cacheOK_rebuilt w ts hts hw

/-- Under the invariant, a canonical-order view call returns exactly the
from-scratch rebuild of the current stores. -/
theorem view_fst_eq_buildRes (w : World) (ts : List CompTy)
    (hts : List.Sorted (· < ·) ts) (hw : CacheOK w) :
    (w.view ts).1 = buildRes w.stores ts := by
  unfold view
  split
  · rename_i res hc
    split
    · rfl
    · rename_i hdirty
      have hd : alookup w.viewDirty (canonKey ts) = some false := by
        rcases hlook : alookup w.viewDirty (canonKey ts) with _ | b
        · rw [hlook] at hdirty; simp at hdirty
        · rw [hlook] at hdirty
          cases b
          · rfl
          · simp at hdirty
      have := (hw _ res hc hd).1
      rw [this, canonKey_eq_self hts]
  · rfl

theorem cacheOK_applyOp (w : World) (op : WOp)
    (hop : ∀ ts, op = WOp.viewq ts → List.Sorted (· < ·) ts)
    (hw : CacheOK w) : CacheOK (applyOp w op) := by
  cases op with
  | add e t v => exact cacheOK_add w e t v hw
  | wremove e t => exact cacheOK_remove w e t hw
  | destroy e => exact cacheOK_destroy w e hw
  | viewq ts => exact cacheOK_view w ts (hop ts rfl) hw

theorem cacheOK_runOps (w : World) (ops : List WOp)
    (hops : ∀ ts, WOp.viewq ts ∈ ops → List.Sorted (· < ·) ts)
    (hw : CacheOK w) : CacheOK (runOps w ops) := by
  induction ops generalizing w with
  | nil => exact hw
  | cons op rest ih =>
    refine ih _ (fun ts hts => hops ts (List.mem_cons_of_mem _ hts)) ?_
    refine cacheOK_applyOp w op (fun ts heq => ?_) hw
    exact hops ts (heq ▸ List.mem_cons_self op rest)

/-! ### Characterizing the from-scratch rebuild -/

theorem mem_foldl_filter (init : List EId) (l : List CompTy)
    (p : CompTy → EId → Bool) (e : EId) :
    e ∈ l.foldl (fun acc t => acc.filter (p t)) init ↔
      e ∈ init ∧ ∀ t ∈ l, p t e := by
  induction l generalizing init with
  | nil => simp
  | cons t rest ih =>
    show e ∈ rest.foldl _ (init.filter (p t)) ↔ _
    rw [ih]
    simp only [List.mem_filter, List.forall_mem_cons]
    tauto

theorem mem_buildRes_fst (stores : List (CompTy × StoreA)) (ts : List CompTy)
    (e : EId) :
    e ∈ (buildRes stores ts).1 ↔
      ts ≠ [] ∧ ∀ t ∈ ts, (alookup ((alookup stores t).getD []) e).isSome := by
  unfold buildRes
  rw [List.mem_insertionSort]
  cases ts with
  | nil => simp [interEnts]
  | cons t rest =>
    simp only [interEnts, ne_eq, reduceCtorEq, not_false_iff, true_and]
    rw [mem_foldl_filter]
    rw [mem_akeys_iff]
    simp [List.forall_mem_cons, and_assoc]

theorem sorted_buildRes_fst (stores : List (CompTy × StoreA))
    (ts : List CompTy) : List.Sorted (· ≤ ·) (buildRes stores ts).1 :=
  List.sorted_insertionSort _ _

theorem get_isSome_iff (w : World) (e : EId) (t : CompTy) :
    (w.get e t).isSome ↔ (alookup ((alookup w.stores t).getD []) e).isSome := by
  unfold get
  cases alookup w.stores t <;> simp [alookup]

end World

/-! ### C1: query results equal a from-scratch recomputation -/

/-- **C1 counterexample.** The cache key is the `frozenset` of the request,
but cached rows keep the request order of the call that built them: after
`view(A, B)` populates the cache, `view(B, A)` serves rows in `(A, B)`
order, which differs from recomputing `view(B, A)` from scratch.  Here
entity `1` holds component `10` of type `0` and component `20` of type `1`:
the cached query returns row `[10, 20]`, the rebuild `[20, 10]`. -/
theorem view_stale_row_order :
    ((runOps World.init
        [WOp.add 1 0 10, WOp.add 1 1 20, WOp.viewq [0, 1]]).view [1, 0]).1 ≠
      World.buildRes
        (runOps World.init
          [WOp.add 1 0 10, WOp.add 1 1 20, WOp.viewq [0, 1]]).stores [1, 0] := by
  decide

/-- **C1 (amended).** For every sequence of add/remove/destroy operations
interleaved with queries in which each query lists its component types in
the one canonical (strictly sorted) order — so that distinct request orders
never share a `frozenset` cache key — each query returns exactly the result
of recomputing it from scratch against the current store state; that
result's entities are sorted ascending by id, it contains exactly the
entities holding all requested types, and (by definition of the rebuild)
one row per entity with the requested components in request order. -/
theorem view_coherent (ops : List WOp)
    (hops : ∀ ts, WOp.viewq ts ∈ ops → List.Sorted (· < ·) ts)
    (ts : List CompTy) (hts : List.Sorted (· < ·) ts) :
    ((runOps World.init ops).view ts).1 =
      World.buildRes (runOps World.init ops).stores ts ∧
    List.Sorted (· ≤ ·) (World.buildRes (runOps World.init ops).stores ts).1 ∧
    ∀ e, e ∈ (World.buildRes (runOps World.init ops).stores ts).1 ↔
      (ts ≠ [] ∧ ∀ t ∈ ts, ((runOps World.init ops).get e t).isSome) := by
  have hok : World.CacheOK (runOps World.init ops) :=
    World.cacheOK_runOps _ ops hops World.cacheOK_init
  refine ⟨World.view_fst_eq_buildRes _ ts hts hok,
    World.sorted_buildRes_fst _ ts, fun e => ?_⟩
  rw [World.mem_buildRes_fst]
  constructor
  · rintro ⟨hne, hall⟩
    exact ⟨hne, fun t ht => (World.get_isSome_iff _ e t).mpr (hall t ht)⟩
  · rintro ⟨hne, hall⟩
    exact ⟨hne, fun t ht => (World.get_isSome_iff _ e t).mp (hall t ht)⟩

/-- Closed instantiation of `view_coherent`. -/
theorem view_coherent_witness :
    ((runOps World.init [WOp.add 1 0 10, WOp.viewq [0]]).view [0]).1 =
      World.buildRes
        (runOps World.init [WOp.add 1 0 10, WOp.viewq [0]]).stores [0] ∧
    List.Sorted (· ≤ ·)
      (World.buildRes
        (runOps World.init [WOp.add 1 0 10, WOp.viewq [0]]).stores [0]).1 ∧
    ∀ e, e ∈ (World.buildRes
        (runOps World.init [WOp.add 1 0 10, WOp.viewq [0]]).stores [0]).1 ↔
      ([0] ≠ ([] : List CompTy) ∧ ∀ t ∈ ([0] : List CompTy),
        ((runOps World.init [WOp.add 1 0 10, WOp.viewq [0]]).get e t).isSome) :=
  view_coherent [WOp.add 1 0 10, WOp.viewq [0]]
    (by
      intro ts hts
      simp only [List.mem_cons, List.not_mem_nil, or_false, reduceCtorEq,
        false_or] at hts
      cases hts
      exact List.sorted_singleton 0)
    [0] (List.sorted_singleton 0)

/-! ## Motion system (`systems/motion.py`)

The float movement budget `remaining = motion.speed_tps * dt` is modelled
as `ℚ`: the loop only compares it with `0` and subtracts `1.0` from it.
`EPS = 1.0 / TILE` with `TILE = 32` (`constants.py`).  The per-entity
`while` loop pops one queued cell per iteration (on both branches) and
otherwise breaks, so it is structural recursion on the path queue. -/

/-- `EPS = 1.0 / TILE` (`constants.py`, `TILE = 32`). -/
def EPS : ℚ := 1 / 32

/-- `MotionSystem._step_to`: vacate the source, occupy the destination;
on failure re-occupy the source and report failure. -/
def stepTo (occ : Cell → Option EId) (eid : EId) (x0 y0 x1 y1 : ℤ) :
    Bool × (Cell → Option EId) :=
  if (Grid.occupy (Grid.vacate occ x0 y0 eid) x1 y1 eid).1 then
    (true, (Grid.occupy (Grid.vacate occ x0 y0 eid) x1 y1 eid).2)
  else
    (false, (Grid.occupy (Grid.vacate occ x0 y0 eid) x0 y0 eid).2)

/-- Result of the per-entity motion loop. -/
structure MotionRes where
  occ : Cell → Option EId
  pos : Cell
  path : List Cell
  ap : ℕ

/-- The per-entity `while` loop of `MotionSystem.update` (state: occupancy
map, grid position, queued path, `ap.current`, remaining budget).  `AP`
is kept in `ℕ`: the source clamps with `max(0, ap.current - 1)`. -/
def motionLoop (eid : EId) (occ : Cell → Option EId) (gx gy : ℤ) :
    List Cell → ℕ → ℚ → MotionRes
  | [], ap, _ => ⟨occ, (gx, gy), [], ap⟩
  | c :: rest, ap, remaining =>
    if 0 < remaining ∧ 0 < ap then
      let dist : ℚ := ((|c.1 - gx| + |c.2 - gy| : ℤ) : ℚ)
      if dist ≤ EPS then
        -- arrived at the cell boundary: transfer occupancy, spend AP,
        -- `continue` without consuming budget
        let r := stepTo occ eid gx gy c.1 c.2
        if r.1 then motionLoop eid r.2 c.1 c.2 rest (ap - 1) remaining
        else ⟨r.2, (gx, gy), [], ap⟩
      else
        -- consume the whole segment: snap to the next node
        let r := stepTo occ eid gx gy c.1 c.2
        if r.1 then motionLoop eid r.2 c.1 c.2 rest (ap - 1) (remaining - 1)
        else ⟨r.2, (gx, gy), [], ap⟩
    else ⟨occ, (gx, gy), c :: rest, ap⟩

/-- The per-entity record the motion system reads and writes:
`Position` (grid and interpolation fields), `Motion.path`, `AP.current`. -/
structure EntRec where
  gx : ℤ
  gy : ℤ
  px : ℚ
  py : ℚ
  path : List Cell
  apCur : ℕ

/-- One entity's slice of `MotionSystem.update`: snapshot the interpolation
fields, then run the consumption loop with budget `speed_tps * dt`. -/
def motionUpdate1 (eid : EId) (occ : Cell → Option EId) (r : EntRec)
    (speedTps dt : ℚ) : (Cell → Option EId) × EntRec :=
  let res := motionLoop eid occ r.gx r.gy r.path r.apCur (speedTps * dt)
  (res.occ,
    { gx := res.pos.1, gy := res.pos.2, px := (r.gx : ℚ), py := (r.gy : ℚ)
      path := res.path, apCur := res.ap })

/-- The Manhattan distance between grid cells is a non-negative integer,
so it is `≤ EPS = 1/32` exactly when it is zero. -/
theorem distQ_le_eps_iff (a b : ℤ) :
    ((|a| + |b| : ℤ) : ℚ) ≤ EPS ↔ a = 0 ∧ b = 0 := by
  constructor
  · intro h
    by_contra hn
    have h1 : (1 : ℤ) ≤ |a| + |b| := by
      rcases not_and_or.mp hn with ha | hb
      · have := abs_nonneg b
        have := Int.one_le_abs (by omega : a ≠ 0)
        omega
      · have := abs_nonneg a
        have := Int.one_le_abs (by omega : b ≠ 0)
        omega
    have h2 : (1 : ℚ) ≤ ((|a| + |b| : ℤ) : ℚ) := by exact_mod_cast h1
    rw [EPS] at h
    linarith
  · rintro ⟨rfl, rfl⟩
    rw [EPS]
    norm_num

/-- When the mover holds the source cell and the destination is free or its
own, `_step_to` succeeds and the resulting occupancy maps the destination
to the mover, clears the source, and touches nothing else. -/
theorem stepTo_success (occ : Cell → Option EId) (eid : EId) (gx gy : ℤ)
    (c : Cell) (hpos : occ (gx, gy) = some eid)
    (hc : occ c = none ∨ occ c = some eid) :
    (stepTo occ eid gx gy c.1 c.2).1 = true ∧
    ∀ c', (stepTo occ eid gx gy c.1 c.2).2 c' =
      if c' = c then some eid else if c' = (gx, gy) then none else occ c' := by
  have hocc1 : Grid.vacate occ gx gy eid =
      fun c' => if c' = (gx, gy) then none else occ c' := by
    unfold Grid.vacate
    rw [if_pos hpos]
  have hfree : (Grid.vacate occ gx gy eid) (c.1, c.2) = none ∨
      (Grid.vacate occ gx gy eid) (c.1, c.2) = some eid := by
    rw [hocc1]
    simp only [Prod.mk.eta]
    by_cases hcp : c = (gx, gy)
    · rw [if_pos hcp]; exact Or.inl rfl
    · rw [if_neg hcp]; exact hc
  have hnot : ¬(((Grid.vacate occ gx gy eid) (c.1, c.2)).isSome ∧
      Grid.vacate occ gx gy eid (c.1, c.2) ≠ some eid) := by
    rcases hfree with h | h
    · exact fun hand => by rw [h] at hand; exact Bool.false_ne_true hand.1
    · exact fun hand => hand.2 h
  have hr : Grid.occupy (Grid.vacate occ gx gy eid) c.1 c.2 eid =
      (true, fun c' => if c' = (c.1, c.2) then some eid
        else Grid.vacate occ gx gy eid c') := by
    unfold Grid.occupy
    rw [if_neg hnot]
  unfold stepTo
  rw [hr]
  refine ⟨rfl, fun c' => ?_⟩
  show (if c' = (c.1, c.2) then some eid else Grid.vacate occ gx gy eid c') = _
  rw [hocc1]

/-- Full characterization of the per-entity consumption loop when the
budget is unconstraining and no other entity blocks the queued cells:
exactly `min L A` cells are consumed and `AP` spent in lockstep, and the
occupancy maps the mover exactly to its final cell while every other
entity's claims are untouched. -/
theorem motionLoop_run (eid : EId) (path : List Cell) :
    ∀ (occ : Cell → Option EId) (gx gy : ℤ) (ap : ℕ) (rem : ℚ),
    (∀ c, occ c = some eid ↔ c = (gx, gy)) →
    (∀ c ∈ path, occ c = none ∨ occ c = some eid) →
    ((path.length : ℚ) ≤ rem) →
    (motionLoop eid occ gx gy path ap rem).path =
      path.drop (min path.length ap) ∧
    (motionLoop eid occ gx gy path ap rem).ap = ap - min path.length ap ∧
    (motionLoop eid occ gx gy path ap rem).pos =
      ((gx, gy) :: path).getD (min path.length ap) (0, 0) ∧
    (∀ c, (motionLoop eid occ gx gy path ap rem).occ c = some eid ↔
      c = (motionLoop eid occ gx gy path ap rem).pos) ∧
    (∀ e2, e2 ≠ eid → ∀ c,
      (motionLoop eid occ gx gy path ap rem).occ c = some e2 ↔
        occ c = some e2) := by
  induction path with
  | nil =>
    intro occ gx gy ap rem hocc _ _
    refine ⟨?_, ?_, ?_, ?_, ?_⟩
    · simp [motionLoop]
    · simp [motionLoop]
    · simp [motionLoop]
    · simpa [motionLoop] using hocc
    · intro e2 _ c'; simp [motionLoop]
  | cons c rest ih =>
    intro occ gx gy ap rem hocc hpath hrem
    match ap with
    | 0 =>
      have hguard : ¬(0 < rem ∧ 0 < (0 : ℕ)) := by simp
      refine ⟨?_, ?_, ?_, ?_, ?_⟩
      · simp [motionLoop, hguard]
      · simp [motionLoop, hguard]
      · simp [motionLoop, hguard]
      · simpa [motionLoop, hguard] using hocc
      · intro e2 _ c'; simp [motionLoop, hguard]
    | a + 1 =>
      have hrem0 : (0 : ℚ) < rem := by
        have : ((rest.length + 1 : ℕ) : ℚ) ≤ rem := by
          simpa using hrem
        have hn : (0 : ℚ) < ((rest.length + 1 : ℕ) : ℚ) := by positivity
        linarith
      have hguard : 0 < rem ∧ 0 < a + 1 := ⟨hrem0, Nat.succ_pos a⟩
      have hstep := stepTo_success occ eid gx gy c
        (hocc (gx, gy) |>.mpr rfl)
        (hpath c (List.mem_cons_self c rest))
      have hmin : min (c :: rest).length (a + 1) = min rest.length a + 1 := by
        simp [List.length_cons, Nat.succ_min_succ]
      by_cases hzero : c.1 - gx = 0 ∧ c.2 - gy = 0
      · -- arrived branch: the queued cell is the current cell
        have hcp : c = (gx, gy) := by
          obtain ⟨h1, h2⟩ := hzero
          have : c.1 = gx := by omega
          have : c.2 = gy := by omega
          exact Prod.ext (by omega) (by omega)
        have hdist : ((|c.1 - gx| + |c.2 - gy| : ℤ) : ℚ) ≤ EPS :=
          (distQ_le_eps_iff _ _).mpr hzero
        have hocc2 : ∀ c', (stepTo occ eid gx gy c.1 c.2).2 c' = occ c' := by
          intro c'
          rw [hstep.2 c']
          by_cases h1 : c' = c
          · rw [if_pos h1, h1, hcp, (hocc (gx, gy)).mpr rfl]
          · rw [if_neg h1, if_neg (by rw [← hcp]; exact h1)]
        rw [motionLoop, if_pos hguard]
        simp only [hdist, if_pos, hstep.1, if_true, Nat.add_sub_cancel]
        have ihres := ih (stepTo occ eid gx gy c.1 c.2).2 c.1 c.2 a rem
          (fun c' => by
            rw [hocc2 c', hocc c', hcp, Prod.mk.eta])
          (fun c' hc' => by
            rw [hocc2 c']
            exact hpath c' (List.mem_cons_of_mem c hc'))
          (by
            have : ((rest.length + 1 : ℕ) : ℚ) ≤ rem := by simpa using hrem
            push_cast at this ⊢
            linarith)
        obtain ⟨ih1, ih2, ih3, ih4, ih5⟩ := ihres
        rw [hmin]
        refine ⟨?_, ?_, ?_, ?_, ?_⟩
        · rw [ih1, List.drop_succ_cons]
        · rw [ih2]; omega
        · rw [ih3, List.getD_cons_succ]
        · exact ih4
        · intro e2 he2 c'
          rw [ih5 e2 he2 c', hocc2 c']
      · -- snap-to-next-node branch
        have hdist : ¬((|c.1 - gx| + |c.2 - gy| : ℤ) : ℚ) ≤ EPS := by
          rw [distQ_le_eps_iff]; exact hzero
        have hcp : c ≠ (gx, gy) := by
          intro heq
          apply hzero
          rw [heq]
          exact ⟨by simp, by simp⟩
        rw [motionLoop, if_pos hguard]
        simp only [hdist, if_false, hstep.1, if_true, Nat.add_sub_cancel]
        have hocc2 : ∀ c', (stepTo occ eid gx gy c.1 c.2).2 c' =
            if c' = c then some eid
            else if c' = (gx, gy) then none else occ c' := hstep.2
        have ihres := ih (stepTo occ eid gx gy c.1 c.2).2 c.1 c.2 a (rem - 1)
          (fun c' => by
            rw [hocc2 c']
            by_cases h1 : c' = c
            · simp [h1, Prod.mk.eta]
            · rw [if_neg h1]
              constructor
              · intro hsome
                by_cases h2 : c' = (gx, gy)
                · rw [if_pos h2] at hsome; cases hsome
                · rw [if_neg h2] at hsome
                  exact absurd ((hocc c').mp hsome) h2
              · intro heq
                exact absurd (heq.trans (Prod.mk.eta)) h1)
          (fun c' hc' => by
            rw [hocc2 c']
            by_cases h1 : c' = c
            · rw [if_pos h1]; exact Or.inr rfl
            · rw [if_neg h1]
              by_cases h2 : c' = (gx, gy)
              · rw [if_pos h2]; exact Or.inl rfl
              · rw [if_neg h2]
                exact hpath c' (List.mem_cons_of_mem c hc'))
          (by
            have : ((rest.length + 1 : ℕ) : ℚ) ≤ rem := by simpa using hrem
            push_cast at this ⊢
            linarith)
        obtain ⟨ih1, ih2, ih3, ih4, ih5⟩ := ihres
        rw [hmin]
        refine ⟨?_, ?_, ?_, ?_, ?_⟩
        · rw [ih1, List.drop_succ_cons]
        · rw [ih2]; omega
        · rw [ih3, List.getD_cons_succ, Prod.mk.eta]
        · exact ih4
        · intro e2 he2 c'
          rw [ih5 e2 he2 c', hocc2 c']
          by_cases h1 : c' = c
          · rw [if_pos h1]
            constructor
            · intro hsome
              exact absurd (Option.some.inj hsome).symm he2
            · intro hsome
              rcases hpath c (List.mem_cons_self c rest) with hn | hs
              · rw [h1, hn] at hsome; cases hsome
              · rw [h1, hs] at hsome
                exact absurd (Option.some.inj hsome).symm he2
          · rw [if_neg h1]
            by_cases h2 : c' = (gx, gy)
            · rw [if_pos h2]
              constructor
              · intro hsome; cases hsome
              · intro hsome
                rw [h2, (hocc (gx, gy)).mpr rfl] at hsome
                exact absurd (Option.some.inj hsome).symm he2
            · rw [if_neg h2]

/-! ### C3: motion/AP lockstep under an unconstraining budget -/

/-- **C3.** For an entity with a queued path of `L` cells, `AP.current = A`
and a per-step budget `speed_tps * dt` large enough to be unconstraining
(`≥ L` suffices: each consumed cell costs at most one unit of budget), one
motion-system update for that entity consumes exactly `min L A` queued
cells, decrements `AP.current` by exactly `min L A`, leaves the other
`L - min L A` cells queued, moves the entity to the `min L A`-th queued
cell, and leaves the occupancy mapping assigning the entity exactly its
final grid position, all other entities' claims untouched.  The entity is
assumed to hold exactly its own current cell and the queued cells must not
be claimed by another entity (claim C9 covers the blocked case). -/
theorem motionUpdate1_spec (eid : EId) (occ : Cell → Option EId) (r : EntRec)
    (speedTps dt : ℚ)
    (hocc : ∀ c, occ c = some eid ↔ c = (r.gx, r.gy))
    (hpath : ∀ c ∈ r.path, occ c = none ∨ occ c = some eid)
    (hbudget : (r.path.length : ℚ) ≤ speedTps * dt) :
    (motionUpdate1 eid occ r speedTps dt).2.path =
      r.path.drop (min r.path.length r.apCur) ∧
    (motionUpdate1 eid occ r speedTps dt).2.apCur =
      r.apCur - min r.path.length r.apCur ∧
    ((motionUpdate1 eid occ r speedTps dt).2.gx,
      (motionUpdate1 eid occ r speedTps dt).2.gy) =
      ((r.gx, r.gy) :: r.path).getD (min r.path.length r.apCur) (0, 0) ∧
    (∀ c, (motionUpdate1 eid occ r speedTps dt).1 c = some eid ↔
      c = ((motionUpdate1 eid occ r speedTps dt).2.gx,
        (motionUpdate1 eid occ r speedTps dt).2.gy)) ∧
    (∀ e2, e2 ≠ eid → ∀ c,
      (motionUpdate1 eid occ r speedTps dt).1 c = some e2 ↔ occ c = some e2) :=
  motionLoop_run eid r.path occ r.gx r.gy r.apCur (speedTps * dt)
    hocc hpath hbudget

/-- Closed instantiation of `motionUpdate1_spec`: the spec's own scenario —
`AP.current = 2`, five queued cells, unconstrained speed — moves the entity
two cells, zeroes `AP`, and retains the remaining three queued cells. -/
theorem motionUpdate1_spec_witness :
    (motionUpdate1 1
        (fun c => if c = ((0 : ℤ), (0 : ℤ)) then some 1 else none)
        ⟨0, 0, 0, 0, [(1, 0), (1, 1), (2, 1), (2, 2), (3, 2)], 2⟩ 6 1).2.path =
      [(2, 1), (2, 2), (3, 2)] ∧
    (motionUpdate1 1
        (fun c => if c = ((0 : ℤ), (0 : ℤ)) then some 1 else none)
        ⟨0, 0, 0, 0, [(1, 0), (1, 1), (2, 1), (2, 2), (3, 2)], 2⟩ 6 1).2.apCur
      = 0 ∧
    ((motionUpdate1 1
        (fun c => if c = ((0 : ℤ), (0 : ℤ)) then some 1 else none)
        ⟨0, 0, 0, 0, [(1, 0), (1, 1), (2, 1), (2, 2), (3, 2)], 2⟩ 6 1).2.gx,
      (motionUpdate1 1
        (fun c => if c = ((0 : ℤ), (0 : ℤ)) then some 1 else none)
        ⟨0, 0, 0, 0, [(1, 0), (1, 1), (2, 1), (2, 2), (3, 2)], 2⟩ 6 1).2.gy)
      = ((1 : ℤ), (1 : ℤ)) := by
  have h := motionUpdate1_spec 1
    (fun c => if c = ((0 : ℤ), (0 : ℤ)) then some 1 else none)
    ⟨0, 0, 0, 0, [(1, 0), (1, 1), (2, 1), (2, 2), (3, 2)], 2⟩ 6 1
    (fun c => by by_cases hc : c = ((0 : ℤ), (0 : ℤ)) <;> simp [hc])
    (by decide)
    (by norm_num)
  exact ⟨h.1, h.2.1, h.2.2.1⟩

/-! ### C9: occupancy conflict aborts that entity's motion only -/

/-- **C9.** When the next queued destination is occupied by a different
entity, the motion step aborts for that entity only: its queued path is
cleared, it rests at its current (last successfully occupied) cell, its AP
is not spent, and the occupancy mapping is left exactly as it was before
the failed step — in particular no other entity's claims are affected. -/
theorem motionUpdate1_blocked (eid e2 : EId) (occ : Cell → Option EId)
    (r : EntRec) (c : Cell) (rest : List Cell) (speedTps dt : ℚ)
    (hpathEq : r.path = c :: rest)
    (hpos : occ (r.gx, r.gy) = some eid)
    (hblocked : occ c = some e2) (hne : e2 ≠ eid)
    (hbudget : 0 < speedTps * dt) (hap : 0 < r.apCur) :
    (motionUpdate1 eid occ r speedTps dt).1 = occ ∧
    (motionUpdate1 eid occ r speedTps dt).2.path = [] ∧
    (motionUpdate1 eid occ r speedTps dt).2.gx = r.gx ∧
    (motionUpdate1 eid occ r speedTps dt).2.gy = r.gy ∧
    (motionUpdate1 eid occ r speedTps dt).2.apCur = r.apCur := by
  have hcne : c ≠ (r.gx, r.gy) := by
    intro heq
    rw [heq, hpos] at hblocked
    exact hne (Option.some.inj hblocked).symm
  have hdist : ¬((|c.1 - r.gx| + |c.2 - r.gy| : ℤ) : ℚ) ≤ EPS := by
    rw [distQ_le_eps_iff]
    rintro ⟨h1, h2⟩
    exact hcne (Prod.ext (by omega) (by omega))
  have hocc1 : Grid.vacate occ r.gx r.gy eid =
      fun c' => if c' = (r.gx, r.gy) then none else occ c' := by
    unfold Grid.vacate
    rw [if_pos hpos]
  have hfail : Grid.occupy (Grid.vacate occ r.gx r.gy eid) c.1 c.2 eid =
      (false, Grid.vacate occ r.gx r.gy eid) := by
    unfold Grid.occupy
    rw [if_pos]
    rw [hocc1]
    simp only [Prod.mk.eta, if_neg hcne]
    constructor
    · rw [hblocked]; simp
    · rw [hblocked]
      intro heq
      exact hne (Option.some.inj heq)
  have hroll : Grid.occupy (Grid.vacate occ r.gx r.gy eid) r.gx r.gy eid =
      (true, fun c' => if c' = (r.gx, r.gy) then some eid
        else Grid.vacate occ r.gx r.gy eid c') := by
    unfold Grid.occupy
    rw [if_neg]
    rw [hocc1]
    simp only [if_pos]
    intro hand
    exact Bool.false_ne_true hand.1
  have hst : stepTo occ eid r.gx r.gy c.1 c.2 = (false, occ) := by
    unfold stepTo
    rw [hfail]
    simp only [Bool.false_eq_true, if_false]
    refine congrArg _ ?_
    rw [hroll]
    funext c'
    simp only
    by_cases h1 : c' = (r.gx, r.gy)
    · rw [if_pos h1, h1, hpos]
    · rw [if_neg h1, hocc1]
      simp only [if_neg h1]
  have hguard : 0 < speedTps * dt ∧ 0 < r.apCur := ⟨hbudget, hap⟩
  have hloop : motionLoop eid occ r.gx r.gy (c :: rest) r.apCur
      (speedTps * dt) = ⟨occ, (r.gx, r.gy), [], r.apCur⟩ := by
    rw [motionLoop, if_pos hguard]
    simp only [hdist, if_false, hst, Bool.false_eq_true, ite_false]
  refine ⟨?_, ?_, ?_, ?_, ?_⟩ <;>
    simp only [motionUpdate1, hpathEq, hloop]

/-- Closed instantiation of `motionUpdate1_blocked`: entity `1` at `(0,0)`
headed for `(1,0)`, which entity `2` occupies. -/
theorem motionUpdate1_blocked_witness :
    (motionUpdate1 1
        (fun c => if c = ((0 : ℤ), (0 : ℤ)) then some 1
          else if c = ((1 : ℤ), (0 : ℤ)) then some 2 else none)
        ⟨0, 0, 0, 0, [(1, 0), (2, 0)], 3⟩ 6 1).1 =
      (fun c => if c = ((0 : ℤ), (0 : ℤ)) then some 1
        else if c = ((1 : ℤ), (0 : ℤ)) then some 2 else none) ∧
    (motionUpdate1 1
        (fun c => if c = ((0 : ℤ), (0 : ℤ)) then some 1
          else if c = ((1 : ℤ), (0 : ℤ)) then some 2 else none)
        ⟨0, 0, 0, 0, [(1, 0), (2, 0)], 3⟩ 6 1).2.path = [] ∧
    (motionUpdate1 1
        (fun c => if c = ((0 : ℤ), (0 : ℤ)) then some 1
          else if c = ((1 : ℤ), (0 : ℤ)) then some 2 else none)
        ⟨0, 0, 0, 0, [(1, 0), (2, 0)], 3⟩ 6 1).2.gx = 0 ∧
    (motionUpdate1 1
        (fun c => if c = ((0 : ℤ), (0 : ℤ)) then some 1
          else if c = ((1 : ℤ), (0 : ℤ)) then some 2 else none)
        ⟨0, 0, 0, 0, [(1, 0), (2, 0)], 3⟩ 6 1).2.gy = 0 ∧
    (motionUpdate1 1
        (fun c => if c = ((0 : ℤ), (0 : ℤ)) then some 1
          else if c = ((1 : ℤ), (0 : ℤ)) then some 2 else none)
        ⟨0, 0, 0, 0, [(1, 0), (2, 0)], 3⟩ 6 1).2.apCur = 3 :=
  motionUpdate1_blocked 1 2
    (fun c => if c = ((0 : ℤ), (0 : ℤ)) then some 1
      else if c = ((1 : ℤ), (0 : ℤ)) then some 2 else none)
    ⟨0, 0, 0, 0, [(1, 0), (2, 0)], 3⟩ (1, 0) [(2, 0)] 6 1
    rfl (by decide) (by decide) (by decide) (by norm_num) (by decide)

/-! ### C6: one cell per entity, under occupy/vacate/motion sequences -/

/-- After a vacate of the entity's synchronized cell, the entity holds no
cell at all (its only possible claim was the vacated one). -/
theorem vacate_no_eid (occ : Cell → Option EId) (eid : EId) (gx gy : ℤ)
    (hself : ∀ c', occ c' = some eid → c' = (gx, gy)) :
    ∀ c', Grid.vacate occ gx gy eid c' ≠ some eid := by
  intro c'
  unfold Grid.vacate
  split
  · dsimp only
    by_cases h1 : c' = (gx, gy)
    · rw [if_pos h1]; intro h; cases h
    · rw [if_neg h1]; intro h; exact h1 (hself c' h)
  · rename_i hne
    intro h
    rw [hself c' h] at h
    exact hne h

/-- `vacate` never adds a claim. -/
theorem vacate_sub (occ : Cell → Option EId) (eid : EId) (gx gy : ℤ) :
    ∀ c' e', Grid.vacate occ gx gy eid c' = some e' → occ c' = some e' := by
  intro c' e'
  unfold Grid.vacate
  split
  · dsimp only
    by_cases h1 : c' = (gx, gy)
    · rw [if_pos h1]; intro h; cases h
    · rw [if_neg h1]; exact id
  · exact id

/-- Any claim present after an `occupy` is either the new one or an old
one. -/
theorem occupy_sub (occ : Cell → Option EId) (e : EId) (x y : ℤ) :
    ∀ c' e', (Grid.occupy occ x y e).2 c' = some e' →
      ((c' = (x, y) ∧ e' = e) ∨ occ c' = some e') := by
  intro c' e'
  unfold Grid.occupy
  split
  · exact fun h => Or.inr h
  · simp only
    by_cases h1 : c' = (x, y)
    · rw [if_pos h1]
      intro h
      exact Or.inl ⟨h1, (Option.some.inj h).symm⟩
    · rw [if_neg h1]
      exact fun h => Or.inr h

/-- When the entity currently holds no cell, an `occupy` leaves it with at
most the target cell, and other entities' claims exactly as before. -/
theorem occupy_claims (occ : Cell → Option EId) (eid : EId) (x y : ℤ)
    (hno : ∀ c', occ c' ≠ some eid) :
    (∀ c', (Grid.occupy occ x y eid).2 c' = some eid → c' = (x, y)) ∧
    (∀ e2, e2 ≠ eid → ∀ c',
      (Grid.occupy occ x y eid).2 c' = some e2 ↔ occ c' = some e2) := by
  constructor
  · intro c' h
    rcases occupy_sub occ eid x y c' eid h with ⟨h1, _⟩ | h1
    · exact h1
    · exact absurd h1 (hno c')
  · intro e2 he2 c'
    unfold Grid.occupy
    split
    · exact Iff.rfl
    · simp only
      by_cases h1 : c' = (x, y)
      · rw [if_pos h1]
        constructor
        · intro h; exact absurd (Option.some.inj h).symm he2
        · rename_i hcond
          intro h
          rw [h1] at h
          refine absurd ⟨?_, ?_⟩ hcond
          · rw [h]; rfl
          · rw [h]
            intro hx
            exact he2 (Option.some.inj hx)
      · rw [if_neg h1]

/-- A `_step_to` keeps the mover's claims at its (old or new) single cell
and never touches another entity's claims, given the mover's claims were
confined to its current cell. -/
theorem stepTo_sync (occ : Cell → Option EId) (eid : EId) (gx gy : ℤ)
    (c : Cell) (hself : ∀ c', occ c' = some eid → c' = (gx, gy)) :
    ((stepTo occ eid gx gy c.1 c.2).1 = true →
      ∀ c', (stepTo occ eid gx gy c.1 c.2).2 c' = some eid → c' = c) ∧
    ((stepTo occ eid gx gy c.1 c.2).1 = false →
      ∀ c', (stepTo occ eid gx gy c.1 c.2).2 c' = some eid → c' = (gx, gy)) ∧
    (∀ e2, e2 ≠ eid → ∀ c',
      (stepTo occ eid gx gy c.1 c.2).2 c' = some e2 ↔ occ c' = some e2) := by
  have hno := vacate_no_eid occ eid gx gy hself
  have hc1 := occupy_claims (Grid.vacate occ gx gy eid) eid c.1 c.2 hno
  have hroll := occupy_claims (Grid.vacate occ gx gy eid) eid gx gy hno
  have hvac := vacate_sub occ eid gx gy
  unfold stepTo
  split
  · refine ⟨?_, ?_, ?_⟩
    · intro _ c' h
      exact (hc1.1 c' h).trans Prod.mk.eta
    · intro h; cases h
    · intro e2 he2 c'
      rw [hc1.2 e2 he2 c']
      constructor
      · intro h; exact hvac c' e2 h
      · intro h
        unfold Grid.vacate
        split
        · dsimp only
          by_cases h1 : c' = (gx, gy)
          · rename_i hsome
            rw [h1, hsome] at h
            exact absurd (Option.some.inj h).symm he2
          · rw [if_neg h1]; exact h
        · exact h
  · refine ⟨?_, ?_, ?_⟩
    · intro h; cases h
    · intro _ c' h
      exact hroll.1 c' h
    · intro e2 he2 c'
      rw [hroll.2 e2 he2 c']
      constructor
      · intro h; exact hvac c' e2 h
      · intro h
        unfold Grid.vacate
        split
        · dsimp only
          by_cases h1 : c' = (gx, gy)
          · rename_i hsome
            rw [h1, hsome] at h
            exact absurd (Option.some.inj h).symm he2
          · rw [if_neg h1]; exact h
        · exact h

/-- The per-entity motion loop keeps the mover's claims exactly on its
final cell (or fewer) and other entities' claims untouched, from the
synchronization hypothesis alone. -/
theorem motionLoop_sync (eid : EId) (path : List Cell) :
    ∀ (occ : Cell → Option EId) (gx gy : ℤ) (ap : ℕ) (rem : ℚ),
    (∀ c', occ c' = some eid → c' = (gx, gy)) →
    (∀ c', (motionLoop eid occ gx gy path ap rem).occ c' = some eid →
      c' = (motionLoop eid occ gx gy path ap rem).pos) ∧
    (∀ e2, e2 ≠ eid → ∀ c',
      (motionLoop eid occ gx gy path ap rem).occ c' = some e2 ↔
        occ c' = some e2) := by
  induction path with
  | nil =>
    intro occ gx gy ap rem hself
    exact ⟨fun c' h => hself c' h, fun _ _ _ => Iff.rfl⟩
  | cons c rest ih =>
    intro occ gx gy ap rem hself
    by_cases hguard : 0 < rem ∧ 0 < ap
    · have hsync := stepTo_sync occ eid gx gy c hself
      rcases hb : (stepTo occ eid gx gy c.1 c.2).1 with _ | _
      · -- the step fails on either branch: loop ends with the rollback map
        refine ⟨?_, ?_⟩ <;>
          · rw [motionLoop, if_pos hguard]
            simp only [hb, Bool.false_eq_true, if_false, ite_self]
            first
            | exact hsync.2.1 hb
            | exact hsync.2.2
      · -- the step succeeds on either branch: recurse from the new cell
        have hself' : ∀ c', (stepTo occ eid gx gy c.1 c.2).2 c' = some eid →
            c' = (c.1, c.2) := by
          intro c' h
          exact ((hsync.1 hb c' h).trans Prod.mk.eta.symm)
        rcases hdist : decide
            (((|c.1 - gx| + |c.2 - gy| : ℤ) : ℚ) ≤ EPS) with _ | _
        · have hd : ¬((|c.1 - gx| + |c.2 - gy| : ℤ) : ℚ) ≤ EPS :=
            of_decide_eq_false hdist
          obtain ⟨iha, ihb⟩ := ih (stepTo occ eid gx gy c.1 c.2).2 c.1 c.2
            (ap - 1) (rem - 1) hself'
          refine ⟨?_, ?_⟩
          · rw [motionLoop, if_pos hguard]
            simp only [hd, if_false, hb, if_true]
            exact iha
          · intro e2 he2 c'
            rw [motionLoop, if_pos hguard]
            simp only [hd, if_false, hb, if_true]
            rw [ihb e2 he2 c', hsync.2.2 e2 he2 c']
        · have hd : ((|c.1 - gx| + |c.2 - gy| : ℤ) : ℚ) ≤ EPS :=
            of_decide_eq_true hdist
          obtain ⟨iha, ihb⟩ := ih (stepTo occ eid gx gy c.1 c.2).2 c.1 c.2
            (ap - 1) rem hself'
          refine ⟨?_, ?_⟩
          · rw [motionLoop, if_pos hguard]
            simp only [hd, if_true, hb]
            exact iha
          · intro e2 he2 c'
            rw [motionLoop, if_pos hguard]
            simp only [hd, if_true, hb]
            rw [ihb e2 he2 c', hsync.2.2 e2 he2 c']
    · refine ⟨?_, ?_⟩ <;>
        · rw [motionLoop, if_neg hguard]
          first
          | exact fun c' h => hself c' h
          | exact fun _ _ _ => Iff.rfl

/-- The world state claim C6 ranges over: the occupancy index plus each
entity's position, queued path and action points. -/
structure MWorld where
  occm : Cell → Option EId
  pos : EId → Cell
  mpath : EId → List Cell
  apm : EId → ℕ

/-- The operations of claim C6: raw `Grid.occupy`, `Grid.vacate`, and a
motion-system step for one entity (`MotionSystem.update` is the fold of
these single-entity steps over the entities of the `view`). -/
inductive GOp : Type
  | gOccupy (x y : ℤ) (e : EId)
  | gVacate (x y : ℤ) (e : EId)
  | gStep (e : EId) (rem : ℚ)

/-- Apply one operation to the world. -/
def applyGOp (w : MWorld) : GOp → MWorld
  | .gOccupy x y e => { w with occm := (Grid.occupy w.occm x y e).2 }
  | .gVacate x y e => { w with occm := Grid.vacate w.occm x y e }
  | .gStep e rem =>
    { occm := (motionLoop e w.occm (w.pos e).1 (w.pos e).2
        (w.mpath e) (w.apm e) rem).occ
      pos := fun e' => if e' = e then
        (motionLoop e w.occm (w.pos e).1 (w.pos e).2
          (w.mpath e) (w.apm e) rem).pos else w.pos e'
      mpath := fun e' => if e' = e then
        (motionLoop e w.occm (w.pos e).1 (w.pos e).2
          (w.mpath e) (w.apm e) rem).path else w.mpath e'
      apm := fun e' => if e' = e then
        (motionLoop e w.occm (w.pos e).1 (w.pos e).2
          (w.mpath e) (w.apm e) rem).ap else w.apm e' }

/-- Run a sequence of grid-world operations. -/
def runGOps (w : MWorld) (ops : List GOp) : MWorld :=
  ops.foldl applyGOp w

/-- The initial world: empty occupancy index. -/
def minit : MWorld :=
  ⟨fun _ => none, fun _ => (0, 0), fun _ => [], fun _ => 0⟩

/-- The entity is recorded as occupant of at most one cell. -/
def AtMostOneCell (occm : Cell → Option EId) (e : EId) : Prop :=
  ∀ c d, occm c = some e → occm d = some e → c = d

/-- **C6 counterexample.** `Grid.occupy` checks only the target cell, so an
entity that already holds a cell can claim a second one: from the empty
world, `occupy((0,0), 1)` then `occupy((1,1), 1)` both succeed and entity
`1` is recorded as occupant of two distinct cells. -/
theorem occupy_twice_two_cells :
    ¬ AtMostOneCell
      ((runGOps minit [GOp.gOccupy 0 0 1, GOp.gOccupy 1 1 1]).occm) 1 := by
  intro h
  have h1 : (runGOps minit [GOp.gOccupy 0 0 1, GOp.gOccupy 1 1 1]).occm
      ((0 : ℤ), (0 : ℤ)) = some 1 := by decide
  have h2 : (runGOps minit [GOp.gOccupy 0 0 1, GOp.gOccupy 1 1 1]).occm
      ((1 : ℤ), (1 : ℤ)) = some 1 := by decide
  have := h _ _ h1 h2
  simp at this

/-- Each entity's claims are confined to its recorded position. -/
def SyncInv (w : MWorld) : Prop :=
  ∀ e c, w.occm c = some e → c = w.pos e

/-- Admissible op sequences: every raw `occupy` targets the claiming
entity's current position (as the game's spawn and motion code does);
`vacate` and motion steps are unrestricted. -/
def AllowedRun : MWorld → List GOp → Prop
  | _, [] => True
  | w, op :: rest =>
    (∀ x y e, op = GOp.gOccupy x y e → (x, y) = w.pos e) ∧
    AllowedRun (applyGOp w op) rest

theorem syncInv_applyGOp (w : MWorld) (op : GOp)
    (hall : ∀ x y e, op = GOp.gOccupy x y e → (x, y) = w.pos e)
    (hw : SyncInv w) : SyncInv (applyGOp w op) := by
  cases op with
  | gOccupy x y e =>
    intro e' c h
    rcases occupy_sub w.occm e x y c e' h with ⟨hc, he⟩ | hold
    · rw [hc, he]
      exact hall x y e rfl
    · exact hw e' c hold
  | gVacate x y e =>
    intro e' c h
    exact hw e' c (vacate_sub w.occm e x y c e' h)
  | gStep e rem =>
    have hsync := motionLoop_sync e (w.mpath e) w.occm (w.pos e).1 (w.pos e).2
      (w.apm e) rem (fun c' h => (hw e c' h).trans Prod.mk.eta.symm)
    intro e' c h
    by_cases he : e' = e
    · subst he
      simp only [applyGOp] at h ⊢
      split
      · exact hsync.1 c h
      · rename_i hne
        exact absurd trivial hne
    · simp only [applyGOp] at h ⊢
      split
      · rename_i heq
        exact absurd heq he
      · exact hw e' c ((hsync.2 e' he c).mp h)

theorem syncInv_runGOps (ops : List GOp) :
    ∀ w, AllowedRun w ops → SyncInv w → SyncInv (runGOps w ops) := by
  induction ops with
  | nil => exact fun w _ hw => hw
  | cons op rest ih =>
    intro w hrun hw
    exact ih (applyGOp w op) hrun.2 (syncInv_applyGOp w op hrun.1 hw)

/-- **C6 (amended).** In every state reachable from the initial world by a
sequence of occupy, vacate and motion-step operations in which each raw
`occupy(cell, e)` call targets `e`'s own current position — as every call
site of the game does — each entity is recorded as the occupant of at most
one cell of the occupancy mapping. -/
theorem atMostOneCell_of_allowedRun (ops : List GOp)
    (h : AllowedRun minit ops) :
    ∀ e, AtMostOneCell ((runGOps minit ops).occm) e := by
  have hsync : SyncInv (runGOps minit ops) :=
    syncInv_runGOps ops minit h (fun e c hc => by cases hc)
  intro e c d hc hd
  rw [hsync e c hc, hsync e d hd]

/-- Closed instantiation of `atMostOneCell_of_allowedRun`. -/
theorem atMostOneCell_witness :
    AtMostOneCell ((runGOps minit [GOp.gOccupy 0 0 1]).occm) 1 ∧
    AtMostOneCell ((runGOps minit [GOp.gOccupy 0 0 1]).occm) 2 :=
  ⟨atMostOneCell_of_allowedRun [GOp.gOccupy 0 0 1]
      ⟨fun x y e heq => by cases heq; rfl, trivial⟩ 1,
    atMostOneCell_of_allowedRun [GOp.gOccupy 0 0 1]
      ⟨fun x y e heq => by cases heq; rfl, trivial⟩ 2⟩

/-! ## Pathfinding (`pathing.py`)

Both functions consult the grid snapshot and mutate nothing.  The claims'
"4-connected path" notion and the bound/occupancy side conditions are
defined here once, parametrized by the per-cell admissibility predicate
(`reachable_flood` exempts only `start` from the occupancy test, `astar`
exempts `start` and `goal`). -/

/-- Mathematical 4-adjacency of grid cells. -/
def Adjacent (a b : Cell) : Prop :=
  (b.1 = a.1 - 1 ∧ b.2 = a.2) ∨ (b.1 = a.1 + 1 ∧ b.2 = a.2) ∨
  (b.1 = a.1 ∧ b.2 = a.2 - 1) ∨ (b.1 = a.1 ∧ b.2 = a.2 + 1)

instance (a b : Cell) : Decidable (Adjacent a b) := by
  unfold Adjacent
  infer_instance

theorem adjacent_symm {a b : Cell} (h : Adjacent a b) : Adjacent b a := by
  obtain ⟨x, y⟩ := a
  obtain ⟨u, v⟩ := b
  unfold Adjacent at h ⊢
  simp only at h ⊢
  omega

/-- Cells listed by `neighbors4` are exactly the 4-adjacent cells that the
border guards admit. -/
theorem mem_neighbors4_iff (g : Grid) (x y : ℤ) (d : Cell) :
    d ∈ g.neighbors4 x y ↔
      ((d = (x - 1, y) ∧ 0 < x) ∨ (d = (x + 1, y) ∧ x < g.w - 1) ∨
        (d = (x, y - 1) ∧ 0 < y) ∨ (d = (x, y + 1) ∧ y < g.h - 1)) := by
  unfold Grid.neighbors4
  by_cases h1 : 0 < x <;> by_cases h2 : x < g.w - 1 <;>
    by_cases h3 : 0 < y <;> by_cases h4 : y < g.h - 1 <;>
    simp [h1, h2, h3, h4] <;> tauto

/-- An in-bounds cell adjacent to an in-bounds cell is a `neighbors4`
entry. -/
theorem adjacent_mem_neighbors4 (g : Grid) (x y : ℤ) (d : Cell)
    (hxy : g.inBounds x y = true) (hd : g.inBounds d.1 d.2 = true)
    (hadj : Adjacent (x, y) d) : d ∈ g.neighbors4 x y := by
  unfold Grid.inBounds at hxy hd
  simp only [Bool.and_eq_true, decide_eq_true_eq] at hxy hd
  rw [mem_neighbors4_iff]
  obtain ⟨u, v⟩ := d
  simp only at hd
  unfold Adjacent at hadj
  simp only at hadj
  rcases hadj with ⟨h1, h2⟩ | ⟨h1, h2⟩ | ⟨h1, h2⟩ | ⟨h1, h2⟩
  · exact Or.inl ⟨by rw [Prod.mk.injEq]; omega, by omega⟩
  · exact Or.inr (Or.inl ⟨by rw [Prod.mk.injEq]; omega, by omega⟩)
  · exact Or.inr (Or.inr (Or.inl ⟨by rw [Prod.mk.injEq]; omega, by omega⟩))
  · exact Or.inr (Or.inr (Or.inr ⟨by rw [Prod.mk.injEq]; omega, by omega⟩))

/-- A path from `s` to `z` of at most `n` edges, all cells after the first
satisfying `ok`. -/
def ReachN (ok : Cell → Prop) (s : Cell) (n : ℕ) (z : Cell) : Prop :=
  ∃ p : List Cell, p.head? = some s ∧ p.getLast? = some z ∧
    List.Chain' Adjacent p ∧ (∀ c ∈ p.tail, ok c) ∧ p.length ≤ n + 1

theorem reachN_mono (ok : Cell → Prop) (s : Cell) {m n : ℕ} (h : m ≤ n)
    (z : Cell) : ReachN ok s m z → ReachN ok s n z := by
  rintro ⟨p, h1, h2, h3, h4, h5⟩
  exact ⟨p, h1, h2, h3, h4, h5.trans (by omega)⟩

theorem reachN_self (ok : Cell → Prop) (s : Cell) (n : ℕ) :
    ReachN ok s n s :=
  ⟨[s], rfl, rfl, List.chain'_singleton s, by simp, by simp⟩

/-- Extending a path by one admissible adjacent cell. -/
theorem reachN_step {ok : Cell → Prop} {s : Cell} {n : ℕ} {y z : Cell}
    (hy : ReachN ok s n y) (hadj : Adjacent y z) (hz : ok z) :
    ReachN ok s (n + 1) z := by
  obtain ⟨p, h1, h2, h3, h4, h5⟩ := hy
  cases p with
  | nil => cases h1
  | cons a t =>
    refine ⟨(a :: t) ++ [z], by simpa using h1,
      List.getLast?_concat _, ?_, ?_, ?_⟩
    · rw [List.chain'_append]
      refine ⟨h3, List.chain'_singleton z, ?_⟩
      intro x hx y' hy'
      rw [h2, Option.mem_some_iff] at hx
      simp only [List.head?_cons, Option.mem_some_iff] at hy'
      subst hx
      subst hy'
      exact hadj
    · intro c hc
      simp only [List.cons_append, List.tail_cons, List.mem_append,
        List.mem_singleton] at hc
      rcases hc with hc | rfl
      · exact h4 c hc
      · exact hz
    · simp only [List.length_append, List.length_cons, List.length_nil] at h5 ⊢
      omega

/-! ### `reachable_flood` -/

/-- Admissibility of a non-start cell for the flood: in bounds,
terrain-walkable, and unoccupied unless it is the start cell itself
(the source's neighbour filter). -/
def floodOkCell (g : Grid) (s : Cell) (c : Cell) : Prop :=
  g.inBounds c.1 c.2 = true ∧ g.walkable c.2 c.1 = true ∧
    (g.occupants c = none ∨ c = s)

instance (g : Grid) (s c : Cell) : Decidable (floodOkCell g s c) := by
  unfold floodOkCell
  infer_instance

/-- Reachability within `n` steps along flood-admissible cells. -/
def FloodReach (g : Grid) (s : Cell) (n : ℕ) (z : Cell) : Prop :=
  ReachN (floodOkCell g s) s n z

/-- One neighbour of the flood loop body: the guard chain
`seen` / `in_bounds` / `walkable` / occupancy-except-start, then enqueue
and mark seen. -/
def floodPush (g : Grid) (s : Cell) (cost : ℕ)
    (st : List (Cell × ℕ) × List Cell) (n : Cell) :
    List (Cell × ℕ) × List Cell :=
  if n ∈ st.2 then st
  else if ¬ g.inBounds n.1 n.2 then st
  else if ¬ g.walkable n.2 n.1 then st
  else if (g.occupants n).isSome ∧ n ≠ s then st
  else (st.1 ++ [(n, cost + 1)], st.2 ++ [n])

/-- The `while q` loop of `reachable_flood` (fuel-indexed; the fuel is
sized so that it never runs out, which `floodLoop_correct` establishes
through its measure hypothesis). -/
def floodLoop (g : Grid) (s : Cell) (ap : ℕ) :
    ℕ → List (Cell × ℕ) → List Cell → List Cell → List Cell
  | 0, _, _, out => out
  | _ + 1, [], _, out => out
  | fuel + 1, (c, cost) :: q, seen, out =>
    if ap ≤ cost then floodLoop g s ap fuel q seen (out ++ [c])
    else
      let st := (g.neighbors4 c.1 c.2).foldl (floodPush g s cost) (q, seen)
      floodLoop g s ap fuel st.1 st.2 (out ++ [c])

/-- All in-bounds cells, column by column. -/
def boxList (g : Grid) : List Cell :=
  (intRange 0 g.w).flatMap fun x => (intRange 0 g.h).map fun y => (x, y)

/-- `reachable_flood`: AP-limited breadth-first reachability.  The result
set is represented as the list of visited cells in pop order. -/
def reachableFlood (g : Grid) (s : Cell) (ap : ℕ) : List Cell :=
  if g.inBounds s.1 s.2 then
    floodLoop g s ap ((boxList g).length + 1) [(s, 0)] [s] []
  else []

theorem mem_intRange_iff {a b z : ℤ} : z ∈ intRange a b ↔ a ≤ z ∧ z < b := by
  unfold intRange
  simp only [List.mem_map, List.mem_range]
  constructor
  · rintro ⟨i, hi, rfl⟩
    omega
  · rintro ⟨h1, h2⟩
    exact ⟨(z - a).toNat, by omega, by omega⟩

theorem mem_boxList_iff (g : Grid) (c : Cell) :
    c ∈ boxList g ↔ g.inBounds c.1 c.2 = true := by
  unfold boxList Grid.inBounds
  simp only [List.mem_flatMap, List.mem_map, mem_intRange_iff,
    Bool.and_eq_true, decide_eq_true_eq]
  constructor
  · rintro ⟨x, hx, y, hy, rfl⟩
    simp only
    omega
  · intro h
    exact ⟨c.1, by omega, c.2, by omega, by rw [Prod.mk.eta]⟩

/-- Cells of the in-bounds box not yet seen; the loop measure is the queue
length plus this count. -/
def unseenCard (g : Grid) (seen : List Cell) : ℕ :=
  ((boxList g).toFinset \ seen.toFinset).card

end Xcomish

namespace Xcomish

/-- Effect of the neighbour fold of the flood loop: it appends fresh
entries of cost `cost + 1` to the queue and their cells to `seen`, each
admissible, unseen before, and drawn from the neighbour list; conversely
every admissible neighbour ends up seen or freshly enqueued. -/
theorem floodPush_fold (g : Grid) (s : Cell) (cost : ℕ) (ns : List Cell) :
    ∀ (q : List (Cell × ℕ)) (seen : List Cell),
    ∃ news : List (Cell × ℕ),
      (ns.foldl (floodPush g s cost) (q, seen)).1 = q ++ news ∧
      (ns.foldl (floodPush g s cost) (q, seen)).2 = seen ++ news.map Prod.fst ∧
      (∀ e ∈ news, e.2 = cost + 1 ∧ floodOkCell g s e.1 ∧ e.1 ∉ seen ∧
        e.1 ∈ ns) ∧
      (news.map Prod.fst).Nodup ∧
      (∀ n ∈ ns, floodOkCell g s n → (n ∈ seen ∨ (n, cost + 1) ∈ news)) := by
  induction ns with
  | nil =>
    intro q seen
    exact ⟨[], by simp, by simp, by simp, by simp, by simp⟩
  | cons n ns ih =>
    intro q seen
    rw [List.foldl_cons]
    by_cases h1 : n ∈ seen
    · have hstep : floodPush g s cost (q, seen) n = (q, seen) := by
        unfold floodPush
        rw [if_pos h1]
      rw [hstep]
      obtain ⟨news, e1, e2, e3, e4, e5⟩ := ih q seen
      refine ⟨news, e1, e2, ?_, e4, ?_⟩
      · intro e he
        obtain ⟨p1, p2, p3, p4⟩ := e3 e he
        exact ⟨p1, p2, p3, List.mem_cons_of_mem n p4⟩
      · intro m hm hok
        rcases List.mem_cons.mp hm with rfl | hm'
        · exact Or.inl h1
        · exact e5 m hm' hok
    · by_cases h2 : floodOkCell g s n
      · have hstep : floodPush g s cost (q, seen) n =
            (q ++ [(n, cost + 1)], seen ++ [n]) := by
          unfold floodPush
          rw [if_neg h1, if_neg (not_not_intro h2.1),
            if_neg (not_not_intro h2.2.1), if_neg]
          rcases h2.2.2 with hnone | heq
          · intro hand
            rw [hnone] at hand
            exact Bool.false_ne_true hand.1
          · intro hand
            exact hand.2 heq
        rw [hstep]
        obtain ⟨news, e1, e2, e3, e4, e5⟩ := ih (q ++ [(n, cost + 1)]) (seen ++ [n])
        refine ⟨(n, cost + 1) :: news, ?_, ?_, ?_, ?_, ?_⟩
        · rw [e1, List.append_assoc]
          rfl
        · rw [e2, List.append_assoc]
          rfl
        · intro e he
          rcases List.mem_cons.mp he with rfl | he'
          · exact ⟨rfl, h2, h1, List.mem_cons_self n ns⟩
          · obtain ⟨p1, p2, p3, p4⟩ := e3 e he'
            refine ⟨p1, p2, ?_, List.mem_cons_of_mem n p4⟩
            intro hmem
            exact p3 (List.mem_append_left [n] hmem)
        · rw [List.map_cons]
          refine List.nodup_cons.mpr ⟨?_, e4⟩
          intro hmem
          obtain ⟨e, he, heq⟩ := List.mem_map.mp hmem
          exact (e3 e he).2.2.1
            (heq ▸ List.mem_append_right seen (List.mem_singleton.mpr rfl))
        · intro m hm hok
          rcases List.mem_cons.mp hm with rfl | hm'
          · exact Or.inr (List.mem_cons_self _ news)
          · rcases e5 m hm' hok with hseen | hq
            · rcases List.mem_append.mp hseen with hs' | hn
              · exact Or.inl hs'
              · rw [List.mem_singleton.mp hn]
                exact Or.inr (List.mem_cons_self _ news)
            · exact Or.inr (List.mem_cons_of_mem _ hq)
      · have hstep : floodPush g s cost (q, seen) n = (q, seen) := by
          unfold floodPush
          rw [if_neg h1]
          unfold floodOkCell at h2
          push_neg at h2
          by_cases hb : g.inBounds n.1 n.2 = true
          · rw [if_neg (not_not_intro hb)]
            by_cases hw : g.walkable n.2 n.1 = true
            · rw [if_neg (not_not_intro hw)]
              have hocc := h2 hb hw
              rw [if_pos ⟨Option.isSome_iff_ne_none.mpr hocc.1, hocc.2⟩]
            · rw [if_pos hw]
          · rw [if_pos hb]
        rw [hstep]
        obtain ⟨news, e1, e2, e3, e4, e5⟩ := ih q seen
        refine ⟨news, e1, e2, ?_, e4, ?_⟩
        · intro e he
          obtain ⟨p1, p2, p3, p4⟩ := e3 e he
          exact ⟨p1, p2, p3, List.mem_cons_of_mem n p4⟩
        · intro m hm hok
          rcases List.mem_cons.mp hm with rfl | hm'
          · exact absurd hok h2
          · exact e5 m hm' hok

end Xcomish

namespace Xcomish

theorem mem_neighbors4_adjacent (g : Grid) (x y : ℤ) (d : Cell)
    (hd : d ∈ g.neighbors4 x y) : Adjacent (x, y) d := by
  rw [mem_neighbors4_iff] at hd
  unfold Adjacent
  rcases hd with ⟨rfl, _⟩ | ⟨rfl, _⟩ | ⟨rfl, _⟩ | ⟨rfl, _⟩ <;> simp

theorem reachN_zero {ok : Cell → Prop} {s z : Cell}
    (h : ReachN ok s 0 z) : z = s := by
  obtain ⟨p, h1, h2, _, _, h5⟩ := h
  match p with
  | [] => cases h1
  | [a] =>
    simp only [List.head?_cons, Option.some.injEq] at h1
    simp only [List.getLast?_singleton, Option.some.injEq] at h2
    rw [← h1, ← h2]
  | a :: b :: t =>
    simp only [List.length_cons] at h5
    omega

theorem reachN_succ_elim {ok : Cell → Prop} {s : Cell} {n : ℕ} {z : Cell}
    (h : ReachN ok s (n + 1) z) :
    ReachN ok s n z ∨ ∃ y, ReachN ok s n y ∧ Adjacent y z ∧ ok z := by
  obtain ⟨p, h1, h2, h3, h4, h5⟩ := h
  by_cases hlen : p.length ≤ n + 1
  · exact Or.inl ⟨p, h1, h2, h3, h4, hlen⟩
  · rcases List.eq_nil_or_concat p with rfl | ⟨q', z', rfl⟩
    · cases h1
    · rw [List.concat_eq_append] at h1 h2 h3 h4 h5 hlen
      have hz : z' = z := by
        rw [List.getLast?_concat] at h2
        exact Option.some.inj h2
      subst hz
      cases q' with
      | nil =>
        simp only [List.nil_append, List.length_cons, List.length_nil] at hlen
        omega
      | cons a t =>
        right
        have hchain := List.chain'_append.mp h3
        have hlast : (a :: t).getLast? = some ((a :: t).getLast (by simp)) :=
          List.getLast?_eq_getLast _ _
        refine ⟨(a :: t).getLast (by simp),
          ⟨a :: t, by simpa using h1, hlast, hchain.1, ?_, ?_⟩, ?_, ?_⟩
        · intro c hc
          apply h4
          simp only [List.cons_append, List.tail_cons]
          exact List.mem_append_left _ hc
        · simp only [List.length_append, List.length_cons,
            List.length_nil] at h5 hlen ⊢
          omega
        · apply hchain.2.2
          · rw [hlast]
            rfl
          · rfl
        · apply h4
          simp

/-- The flood loop invariant.  `q`, `seen`, `out` are the queue, the seen
set and the emitted set; costs are exact breadth-first distances, the
queue is sorted by cost and spans at most two consecutive cost levels,
emitted cells have had their admissible neighbours recorded unless their
cost already reached the budget, and everything at distance up to the
head cost has been seen. -/
structure FloodInv (g : Grid) (s : Cell) (ap : ℕ) (q : List (Cell × ℕ))
    (seen out : List Cell) : Prop where
  sSeen : s ∈ seen
  qSeen : ∀ e ∈ q, e.1 ∈ seen
  seenSplit : ∀ c ∈ seen, c ∈ out ∨ ∃ k, (c, k) ∈ q
  outSeen : ∀ c ∈ out, c ∈ seen
  seenBox : ∀ c ∈ seen, g.inBounds c.1 c.2 = true
  qBound : ∀ e ∈ q, e.2 ≤ ap
  qReach : ∀ e ∈ q, FloodReach g s e.2 e.1
  qMin : ∀ e ∈ q, 0 < e.2 → ¬ FloodReach g s (e.2 - 1) e.1
  qPair : List.Pairwise (fun a b : Cell × ℕ => a.2 ≤ b.2) q
  qSpread : ∀ a ∈ q, ∀ b ∈ q, a.2 ≤ b.2 + 1
  outDist : ∀ c ∈ out, ∃ j ≤ ap, FloodReach g s j c
  outExpand : ∀ c ∈ out, ∀ d : Cell, Adjacent c d → floodOkCell g s d →
    (d ∈ seen ∨ ∀ j, FloodReach g s j c → ap ≤ j)
  cover : ∀ hd rest, q = hd :: rest →
    ∀ z j, FloodReach g s j z → j ≤ hd.2 → z ∈ seen

end Xcomish

namespace Xcomish

theorem pairwise_snd_le_of_const {k : ℕ} (l : List (Cell × ℕ))
    (h : ∀ e ∈ l, e.2 = k) :
    List.Pairwise (fun a b : Cell × ℕ => a.2 ≤ b.2) l := by
  induction l with
  | nil => exact List.Pairwise.nil
  | cons e t ih =>
    refine List.pairwise_cons.mpr ⟨?_, ?_⟩
    · intro b hb
      rw [h e (List.mem_cons_self e t), h b (List.mem_cons_of_mem e hb)]
    · exact ih fun e' he' => h e' (List.mem_cons_of_mem e he')

/-- Popping a budget-exhausted cell preserves the invariant. -/
theorem floodInv_skip (g : Grid) (s : Cell) (ap : ℕ) (c : Cell) (cost : ℕ)
    (rest : List (Cell × ℕ)) (seen out : List Cell)
    (inv : FloodInv g s ap ((c, cost) :: rest) seen out)
    (hcost : ap ≤ cost) : FloodInv g s ap rest seen (out ++ [c]) := by
  have hchead : c ∈ seen := inv.qSeen (c, cost) (List.mem_cons_self _ _)
  have hrestCost : ∀ e ∈ rest, e.2 = cost := by
    intro e he
    have h1 := (List.pairwise_cons.mp inv.qPair).1 e he
    have h2 := inv.qBound e (List.mem_cons_of_mem _ he)
    omega
  refine ⟨inv.sSeen, ?_, ?_, ?_, inv.seenBox, ?_, ?_, ?_, ?_, ?_, ?_, ?_, ?_⟩
  · exact fun e he => inv.qSeen e (List.mem_cons_of_mem _ he)
  · intro c' hc'
    rcases inv.seenSplit c' hc' with h | ⟨k, hk⟩
    · exact Or.inl (List.mem_append_left _ h)
    · rcases List.mem_cons.mp hk with heq | hmem
      · left
        apply List.mem_append_right
        rw [List.mem_singleton]
        exact congrArg Prod.fst heq
      · exact Or.inr ⟨k, hmem⟩
  · intro c' hc'
    rcases List.mem_append.mp hc' with h | h
    · exact inv.outSeen c' h
    · rw [List.mem_singleton.mp h]
      exact hchead
  · exact fun e he => inv.qBound e (List.mem_cons_of_mem _ he)
  · exact fun e he => inv.qReach e (List.mem_cons_of_mem _ he)
  · exact fun e he => inv.qMin e (List.mem_cons_of_mem _ he)
  · exact (List.pairwise_cons.mp inv.qPair).2
  · exact fun a ha b hb => inv.qSpread a (List.mem_cons_of_mem _ ha)
      b (List.mem_cons_of_mem _ hb)
  · intro c' hc'
    rcases List.mem_append.mp hc' with h | h
    · exact inv.outDist c' h
    · rw [List.mem_singleton.mp h]
      exact ⟨cost, inv.qBound (c, cost) (List.mem_cons_self _ _),
        inv.qReach (c, cost) (List.mem_cons_self _ _)⟩
  · intro c' hc' d hadj hok
    rcases List.mem_append.mp hc' with h | h
    · exact inv.outExpand c' h d hadj hok
    · rw [List.mem_singleton.mp h]
      right
      intro j hj
      by_cases hjc : cost ≤ j
      · omega
      · exfalso
        have h0 : 0 < cost := by omega
        exact inv.qMin (c, cost) (List.mem_cons_self _ _) h0
          (reachN_mono _ s (by omega) c hj)
  · intro hd tl heq z j hz hj
    have hhd : hd ∈ rest := by rw [heq]; exact List.mem_cons_self hd tl
    have : hd.2 = cost := hrestCost hd hhd
    exact inv.cover (c, cost) rest rfl z j hz (by omega)

end Xcomish

namespace Xcomish

/-- Expanding a cell below budget preserves the invariant, and the loop
measure (queue length plus unseen in-bounds cells) does not grow. -/
theorem floodInv_expand (g : Grid) (s : Cell) (ap : ℕ) (c : Cell) (cost : ℕ)
    (rest : List (Cell × ℕ)) (seen out : List Cell)
    (inv : FloodInv g s ap ((c, cost) :: rest) seen out)
    (hcost : cost < ap) :
    FloodInv g s ap
      ((g.neighbors4 c.1 c.2).foldl (floodPush g s cost) (rest, seen)).1
      ((g.neighbors4 c.1 c.2).foldl (floodPush g s cost) (rest, seen)).2
      (out ++ [c]) ∧
    ((g.neighbors4 c.1 c.2).foldl (floodPush g s cost) (rest, seen)).1.length
        + unseenCard g
          ((g.neighbors4 c.1 c.2).foldl (floodPush g s cost) (rest, seen)).2
      ≤ rest.length + unseenCard g seen := by
  obtain ⟨news, e1, e2, e3, e4, e5⟩ :=
    floodPush_fold g s cost (g.neighbors4 c.1 c.2) rest seen
  rw [e1, e2]
  have hchead : c ∈ seen := inv.qSeen (c, cost) (List.mem_cons_self _ _)
  have hcInB : g.inBounds c.1 c.2 = true := inv.seenBox c hchead
  have hreachC : FloodReach g s cost c :=
    inv.qReach (c, cost) (List.mem_cons_self _ _)
  have hheadRel := (List.pairwise_cons.mp inv.qPair).1
  constructor
  · refine ⟨List.mem_append_left _ inv.sSeen, ?_, ?_, ?_, ?_, ?_, ?_, ?_,
      ?_, ?_, ?_, ?_, ?_⟩
    · intro e he
      rcases List.mem_append.mp he with h | h
      · exact List.mem_append_left _ (inv.qSeen e (List.mem_cons_of_mem _ h))
      · exact List.mem_append_right _ (List.mem_map_of_mem Prod.fst h)
    · intro c' hc'
      rcases List.mem_append.mp hc' with h | h
      · rcases inv.seenSplit c' h with ho | ⟨k, hk⟩
        · exact Or.inl (List.mem_append_left _ ho)
        · rcases List.mem_cons.mp hk with heq | hmem
          · left
            apply List.mem_append_right
            rw [List.mem_singleton]
            exact congrArg Prod.fst heq
          · exact Or.inr ⟨k, List.mem_append_left _ hmem⟩
      · obtain ⟨e, he, heq⟩ := List.mem_map.mp h
        refine Or.inr ⟨e.2, List.mem_append_right _ ?_⟩
        rw [← heq, Prod.mk.eta]
        exact he
    · intro c' hc'
      rcases List.mem_append.mp hc' with h | h
      · exact List.mem_append_left _ (inv.outSeen c' h)
      · rw [List.mem_singleton.mp h]
        exact List.mem_append_left _ hchead
    · intro c' hc'
      rcases List.mem_append.mp hc' with h | h
      · exact inv.seenBox c' h
      · obtain ⟨e, he, heq⟩ := List.mem_map.mp h
        rw [← heq]
        exact (e3 e he).2.1.1
    · intro e he
      rcases List.mem_append.mp he with h | h
      · exact inv.qBound e (List.mem_cons_of_mem _ h)
      · rw [(e3 e h).1]
        omega
    · intro e he
      rcases List.mem_append.mp he with h | h
      · exact inv.qReach e (List.mem_cons_of_mem _ h)
      · obtain ⟨p1, p2, p3, p4⟩ := e3 e h
        rw [p1]
        exact reachN_step hreachC (mem_neighbors4_adjacent g c.1 c.2 e.1 p4) p2
    · intro e he h0 hre
      rcases List.mem_append.mp he with h | h
      · exact inv.qMin e (List.mem_cons_of_mem _ h) h0 hre
      · obtain ⟨p1, p2, p3, p4⟩ := e3 e h
        rw [p1, Nat.add_sub_cancel] at hre
        exact p3 (inv.cover (c, cost) rest rfl e.1 cost hre (le_refl _))
    · refine List.pairwise_append.mpr ⟨(List.pairwise_cons.mp inv.qPair).2,
        pairwise_snd_le_of_const news (fun e he => (e3 e he).1), ?_⟩
      intro a ha b hb
      have h1 := inv.qSpread a (List.mem_cons_of_mem _ ha) (c, cost)
        (List.mem_cons_self _ _)
      rw [(e3 b hb).1]
      omega
    · intro a ha b hb
      rcases List.mem_append.mp ha with ha' | ha' <;>
        rcases List.mem_append.mp hb with hb' | hb'
      · exact inv.qSpread a (List.mem_cons_of_mem _ ha')
          b (List.mem_cons_of_mem _ hb')
      · have h1 := inv.qSpread a (List.mem_cons_of_mem _ ha') (c, cost)
          (List.mem_cons_self _ _)
        rw [(e3 b hb').1]
        omega
      · have h1 := hheadRel b hb'
        rw [(e3 a ha').1]
        omega
      · rw [(e3 a ha').1, (e3 b hb').1]
        omega
    · intro c' hc'
      rcases List.mem_append.mp hc' with h | h
      · exact inv.outDist c' h
      · rw [List.mem_singleton.mp h]
        exact ⟨cost, le_of_lt hcost, hreachC⟩
    · intro c' hc' d hadj hok
      rcases List.mem_append.mp hc' with h | h
      · rcases inv.outExpand c' h d hadj hok with hs | hmin
        · exact Or.inl (List.mem_append_left _ hs)
        · exact Or.inr hmin
      · rw [List.mem_singleton.mp h] at hadj
        left
        have hdns : d ∈ g.neighbors4 c.1 c.2 :=
          adjacent_mem_neighbors4 g c.1 c.2 d hcInB hok.1 hadj
        rcases e5 d hdns hok with hs | hn
        · exact List.mem_append_left _ hs
        · exact List.mem_append_right _ (List.mem_map_of_mem Prod.fst hn)
    · intro hd tl heq z j hz hj
      have hhdmem : hd ∈ rest ++ news := by
        rw [heq]
        exact List.mem_cons_self hd tl
      have hhdBound : hd.2 ≤ cost + 1 := by
        rcases List.mem_append.mp hhdmem with h | h
        · exact inv.qSpread hd (List.mem_cons_of_mem _ h) (c, cost)
            (List.mem_cons_self _ _)
        · rw [(e3 hd h).1]
      by_cases hjc : j ≤ cost
      · exact List.mem_append_left _
          (inv.cover (c, cost) rest rfl z j hz hjc)
      · have hjeq : j = cost + 1 := by omega
        subst hjeq
        rcases reachN_succ_elim hz with hz' | ⟨y, hy, hadj, hok⟩
        · exact List.mem_append_left _
            (inv.cover (c, cost) rest rfl z cost hz' (le_refl _))
        · have hyseen : y ∈ seen :=
            inv.cover (c, cost) rest rfl y cost hy (le_refl _)
          rcases inv.seenSplit y hyseen with hyout | ⟨k, hk⟩
          · rcases inv.outExpand y hyout z hadj hok with hs | hmin
            · exact List.mem_append_left _ hs
            · exact absurd (hmin cost hy) (by omega)
          · rcases List.mem_cons.mp hk with hkeq | hkrest
            · have hyc : y = c := congrArg Prod.fst hkeq
              rw [hyc] at hadj
              have hdns : z ∈ g.neighbors4 c.1 c.2 :=
                adjacent_mem_neighbors4 g c.1 c.2 z hcInB hok.1 hadj
              rcases e5 z hdns hok with hs | hn
              · exact List.mem_append_left _ hs
              · exact List.mem_append_right _
                  (List.mem_map_of_mem Prod.fst hn)
            · exfalso
              have hkcost : k = cost := by
                have hlb : cost ≤ k := hheadRel (y, k) hkrest
                by_cases hne : k = cost
                · exact hne
                · exact absurd
                    (reachN_mono _ s (by omega) y hy)
                    (fun hr => inv.qMin (y, k)
                      (List.mem_cons_of_mem _ hkrest) (by omega) hr)
              cases rest with
              | nil => exact absurd hkrest (List.not_mem_nil _)
              | cons r0 rest2 =>
                have hhd0 : hd = r0 := by
                  rw [List.cons_append] at heq
                  exact ((List.cons.injEq _ _ _ _).mp heq.symm).1
                have hr0 : r0.2 = cost + 1 := by
                  have hhb : r0.2 ≤ cost + 1 := by
                    rw [← hhd0]
                    exact hhdBound
                  have h3 : hd.2 = r0.2 := by rw [hhd0]
                  omega
                rcases List.mem_cons.mp hkrest with hke | hkmem
                · have := congrArg Prod.snd hke
                  simp only at this
                  omega
                · have := (List.pairwise_cons.mp
                    (List.pairwise_cons.mp inv.qPair).2).1 (y, k) hkmem
                  simp only at this
                  omega
  · have hcells : (news.map Prod.fst).toFinset ⊆
        (boxList g).toFinset \ seen.toFinset := by
      intro x hx
      rw [List.mem_toFinset] at hx
      obtain ⟨e, he, heq⟩ := List.mem_map.mp hx
      obtain ⟨_, hok, hnotseen, _⟩ := e3 e he
      rw [Finset.mem_sdiff, List.mem_toFinset, List.mem_toFinset,
        mem_boxList_iff]
      rw [← heq]
      exact ⟨hok.1, hnotseen⟩
    have hsplit : (boxList g).toFinset \ (seen ++ news.map Prod.fst).toFinset =
        ((boxList g).toFinset \ seen.toFinset) \ (news.map Prod.fst).toFinset := by
      ext x
      simp only [Finset.mem_sdiff, List.mem_toFinset, List.mem_append]
      tauto
    have hcard : ((news.map Prod.fst).toFinset).card = news.length := by
      rw [List.toFinset_card_of_nodup e4, List.length_map]
    have hle : news.length ≤ unseenCard g seen := by
      rw [← hcard]
      exact (Finset.card_le_card hcells)
    unfold unseenCard
    rw [hsplit, Finset.card_sdiff hcells, hcard, List.length_append]
    unfold unseenCard at hle
    omega

end Xcomish

namespace Xcomish

/-- When the queue is empty, every cell reachable within the budget has
been emitted. -/
theorem floodInv_leaf_complete (g : Grid) (s : Cell) (ap : ℕ)
    (seen out : List Cell) (inv : FloodInv g s ap [] seen out) :
    ∀ j, j ≤ ap → ∀ z, FloodReach g s j z → z ∈ out := by
  intro j
  induction j with
  | zero =>
    intro _ z hz
    rw [reachN_zero hz]
    rcases inv.seenSplit s inv.sSeen with h | ⟨k, hk⟩
    · exact h
    · exact absurd hk (List.not_mem_nil _)
  | succ j ihj =>
    intro hj z hz
    rcases reachN_succ_elim hz with h | ⟨y, hy, hadj, hok⟩
    · exact ihj (by omega) z h
    · have hyout : y ∈ out := ihj (by omega) y hy
      rcases inv.outExpand y hyout z hadj hok with hseen | hmin
      · rcases inv.seenSplit z hseen with h | ⟨k, hk⟩
        · exact h
        · exact absurd hk (List.not_mem_nil _)
      · exact absurd (hmin j hy) (by omega)

/-- Main loop correctness: from an invariant state with adequate fuel, the
flood loop emits exactly the budget-bounded reachable cells (plus what it
had already emitted, which the invariant constrains the same way). -/
theorem floodLoop_correct (g : Grid) (s : Cell) (ap : ℕ) :
    ∀ (fuel : ℕ) (q : List (Cell × ℕ)) (seen out : List Cell),
    FloodInv g s ap q seen out →
    q.length + unseenCard g seen < fuel →
    ∀ z, z ∈ floodLoop g s ap fuel q seen out ↔
      ∃ j, j ≤ ap ∧ FloodReach g s j z := by
  intro fuel
  induction fuel with
  | zero =>
    intro q seen out _ hm
    omega
  | succ fuel ih =>
    intro q seen out inv hm z
    match q with
    | [] =>
      show z ∈ out ↔ _
      constructor
      · intro hz
        obtain ⟨j, hj, hr⟩ := inv.outDist z hz
        exact ⟨j, hj, hr⟩
      · rintro ⟨j, hj, hr⟩
        exact floodInv_leaf_complete g s ap seen out inv j hj z hr
    | (c, cost) :: rest =>
      by_cases hcost : ap ≤ cost
      · rw [show floodLoop g s ap (fuel + 1) ((c, cost) :: rest) seen out =
          floodLoop g s ap fuel rest seen (out ++ [c]) from by
            rw [floodLoop, if_pos hcost]]
        exact ih rest seen (out ++ [c])
          (floodInv_skip g s ap c cost rest seen out inv hcost)
          (by simp only [List.length_cons] at hm; omega) z
      · have hlt : cost < ap := by omega
        obtain ⟨inv', hmeas⟩ :=
          floodInv_expand g s ap c cost rest seen out inv hlt
        rw [show floodLoop g s ap (fuel + 1) ((c, cost) :: rest) seen out =
          floodLoop g s ap fuel
            ((g.neighbors4 c.1 c.2).foldl (floodPush g s cost) (rest, seen)).1
            ((g.neighbors4 c.1 c.2).foldl (floodPush g s cost) (rest, seen)).2
            (out ++ [c]) from by
            rw [floodLoop, if_neg hcost]]
        exact ih _ _ _ inv'
          (by simp only [List.length_cons] at hm; omega) z

end Xcomish

namespace Xcomish

/-- The invariant holds at the flood's initial state. -/
theorem floodInv_initial (g : Grid) (s : Cell)
    (hs : g.inBounds s.1 s.2 = true) (ap : ℕ) :
    FloodInv g s ap [(s, 0)] [s] [] := by
  refine ⟨List.mem_singleton.mpr rfl, ?_, ?_, ?_, ?_, ?_, ?_, ?_, ?_, ?_,
    ?_, ?_, ?_⟩
  · intro e he
    rw [List.mem_singleton.mp he]
    exact List.mem_singleton.mpr rfl
  · intro c hc
    rw [List.mem_singleton.mp hc]
    exact Or.inr ⟨0, List.mem_singleton.mpr rfl⟩
  · intro c hc
    exact absurd hc (List.not_mem_nil _)
  · intro c hc
    rw [List.mem_singleton.mp hc]
    exact hs
  · intro e he
    rw [List.mem_singleton.mp he]
    exact Nat.zero_le ap
  · intro e he
    rw [List.mem_singleton.mp he]
    exact reachN_self _ s 0
  · intro e he h0
    rw [List.mem_singleton.mp he] at h0
    exact absurd h0 (by simp)
  · exact List.pairwise_singleton _ _
  · intro a ha b hb
    rw [List.mem_singleton.mp ha, List.mem_singleton.mp hb]
    omega
  · intro c hc
    exact absurd hc (List.not_mem_nil _)
  · intro c hc
    exact absurd hc (List.not_mem_nil _)
  · intro hd tl heq z j hz hj
    have hhd : hd = (s, 0) := by
      have := congrArg List.head? heq
      simp only [List.head?_cons] at this
      exact (Option.some.inj this).symm
    rw [hhd] at hj
    simp only at hj
    have hz0 : FloodReach g s 0 z := reachN_mono _ s (by omega) z hz
    rw [reachN_zero hz0]
    exact List.mem_singleton.mpr rfl

/-- **C5.** For every grid state, in-bounds start cell and budget, the
flood returns exactly the set of cells reachable from start by a
4-connected path of length at most the budget whose cells other than the
start are in-bounds, terrain-walkable and unoccupied (the start cell
itself being exempt from the occupancy test), and the result always
contains the start. -/
theorem reachableFlood_spec (g : Grid) (s : Cell) (ap : ℕ)
    (hs : g.inBounds s.1 s.2 = true) :
    (∀ z, z ∈ reachableFlood g s ap ↔ ∃ j, j ≤ ap ∧ FloodReach g s j z) ∧
    s ∈ reachableFlood g s ap := by
  have hmain : ∀ z, z ∈ reachableFlood g s ap ↔
      ∃ j, j ≤ ap ∧ FloodReach g s j z := by
    intro z
    unfold reachableFlood
    rw [if_pos hs]
    apply floodLoop_correct g s ap _ _ _ _ (floodInv_initial g s hs ap)
    have hsbox : s ∈ (boxList g).toFinset := by
      rw [List.mem_toFinset, mem_boxList_iff]
      exact hs
    have hsub : ((boxList g).toFinset \ [s].toFinset).card <
        (boxList g).toFinset.card := by
      apply Finset.card_lt_card
      rw [Finset.ssubset_iff_of_subset (Finset.sdiff_subset)]
      exact ⟨s, hsbox, by simp⟩
    have hlen : (boxList g).toFinset.card ≤ (boxList g).length :=
      List.toFinset_card_le _
    unfold unseenCard
    simp only [List.length_singleton]
    omega
  refine ⟨hmain, ?_⟩
  rw [hmain s]
  exact ⟨0, Nat.zero_le ap, reachN_self _ s 0⟩

/-- Closed instantiation of `reachableFlood_spec`: the spec's own scenario
(3×3 open grid, start `(1,1)`, budget `1`). -/
theorem reachableFlood_spec_witness :
    (∀ z, z ∈ reachableFlood
        ⟨3, 3, fun _ _ => true, fun _ _ => false, fun _ => none, ∅, ∅⟩
        (1, 1) 1 ↔
      ∃ j, j ≤ 1 ∧ FloodReach
        ⟨3, 3, fun _ _ => true, fun _ _ => false, fun _ => none, ∅, ∅⟩
        (1, 1) j z) ∧
    (1, 1) ∈ reachableFlood
      ⟨3, 3, fun _ _ => true, fun _ _ => false, fun _ => none, ∅, ∅⟩
      (1, 1) 1 :=
  reachableFlood_spec _ (1, 1) 1 (by decide)

end Xcomish

namespace Xcomish

/-! ### `astar` -/

/-- The Manhattan heuristic `abs(gx - nx) + abs(gy - ny)`. -/
def manhattan (a b : Cell) : ℕ := (b.1 - a.1).natAbs + (b.2 - a.2).natAbs

/-- Admissibility of a cell for astar's neighbour filter: in bounds,
terrain-walkable, and unoccupied unless it is the start or goal cell. -/
def astarOkCell (g : Grid) (s t : Cell) (c : Cell) : Prop :=
  g.inBounds c.1 c.2 = true ∧ g.walkable c.2 c.1 = true ∧
    (g.occupants c = none ∨ c = s ∨ c = t)

instance (g : Grid) (s t c : Cell) : Decidable (astarOkCell g s t c) := by
  unfold astarOkCell
  infer_instance

/-- An abstract minimum selector over the frontier.  The source computes
`min(open_set, key=lambda p: f.get(p, 10_000_000))` over a Python `set`,
whose iteration order the language does not specify; every such scan is a
selector returning a member of minimal key, so the claims proved for every
`MinSel` hold for the source whatever that order is. -/
structure MinSel where
  sel : List Cell → (Cell → ℕ) → Cell
  sel_mem : ∀ (l : List Cell) (f : Cell → ℕ), l ≠ [] → sel l f ∈ l
  sel_min : ∀ (l : List Cell) (f : Cell → ℕ), l ≠ [] →
    ∀ x ∈ l, f (sel l f) ≤ f x

/-- One neighbour of the astar relaxation: bounds/terrain guard, occupancy
guard with start and goal exempt, then the `tentative < g.get(...)`
improvement test updating `came_from`, `g`, `f` and the frontier.  The
state is `(open_set, came_from, g, f)`. -/
def relaxPush (g : Grid) (s t cur : Cell)
    (st : List Cell × List (Cell × Cell) × List (Cell × ℕ) × List (Cell × ℕ))
    (n : Cell) :
    List Cell × List (Cell × Cell) × List (Cell × ℕ) × List (Cell × ℕ) :=
  if ¬ g.inBounds n.1 n.2 then st
  else if ¬ g.walkable n.2 n.1 then st
  else if (g.occupants n).isSome ∧ n ≠ s ∧ n ≠ t then st
  else
    if (alookup st.2.2.1 cur).getD 0 + 1 < (alookup st.2.2.1 n).getD 1000000
    then
      (if n ∈ st.1 then st.1 else st.1 ++ [n],
        aupdate st.2.1 n cur,
        aupdate st.2.2.1 n ((alookup st.2.2.1 cur).getD 0 + 1),
        aupdate st.2.2.2 n
          ((alookup st.2.2.1 cur).getD 0 + 1 + manhattan n t))
    else st

/-- Path reconstruction: `while current in came_from` with a fuel bound
(the invariant that `g` strictly decreases along `came_from` makes the
chosen fuel sufficient). -/
def rebuild (came : List (Cell × Cell)) : ℕ → Cell → List Cell
  | 0, cur => [cur]
  | fuel + 1, cur =>
    match alookup came cur with
    | none => [cur]
    | some p => rebuild came fuel p ++ [cur]

/-- The main astar loop: select the minimal-`f` frontier node, return the
reconstructed path on reaching the goal, else expand its neighbours. -/
def astarLoop (ms : MinSel) (g : Grid) (s t : Cell) :
    ℕ → List Cell → List (Cell × Cell) → List (Cell × ℕ) →
      List (Cell × ℕ) → List Cell
  | 0, _, _, _, _ => []
  | _ + 1, [], _, _, _ => []
  | fuel + 1, o1 :: orest, came, gm, fm =>
    let cur := ms.sel (o1 :: orest) (fun c => (alookup fm c).getD 10000000)
    if cur = t then
      rebuild came ((alookup gm cur).getD 0) cur
    else
      let st := (g.neighbors4 cur.1 cur.2).foldl (relaxPush g s t cur)
        ((o1 :: orest).erase cur, came, gm, fm)
      astarLoop ms g s t fuel st.1 st.2.1 st.2.2.1 st.2.2.2

/-- `astar`: trivial-goal shortcut, invalid-goal rejection, search, and
the `max_len` truncation. -/
def astar (ms : MinSel) (g : Grid) (s t : Cell) (maxLen : Option ℕ) :
    List Cell :=
  if s = t then [s]
  else if ¬(g.inBounds t.1 t.2 = true ∧ g.walkable t.2 t.1 = true) then []
  else
    let path := astarLoop ms g s t ((g.w * g.h).toNat + 2) [s] []
      [(s, 0)] [(s, manhattan s t)]
    match maxLen with
    | none => path
    | some m => if m < path.length then path.take m else path

/-- First-minimum scan helper. -/
def firstMinAux (f : Cell → ℕ) : List Cell → Cell → Cell
  | [], best => best
  | x :: xs, best => firstMinAux f xs (if f x < f best then x else best)

theorem firstMinAux_spec (f : Cell → ℕ) (l : List Cell) :
    ∀ b, firstMinAux f l b ∈ b :: l ∧
      ∀ x ∈ b :: l, f (firstMinAux f l b) ≤ f x := by
  induction l with
  | nil =>
    intro b
    refine ⟨List.mem_singleton.mpr rfl, ?_⟩
    intro x hx
    rw [List.mem_singleton.mp hx]
    exact le_refl _
  | cons x xs ih =>
    intro b
    by_cases hfx : f x < f b
    · have hstep : firstMinAux f (x :: xs) b = firstMinAux f xs x := by
        show firstMinAux f xs (if f x < f b then x else b) = _
        rw [if_pos hfx]
      obtain ⟨ihm, ihmin⟩ := ih x
      rw [hstep]
      constructor
      · rcases List.mem_cons.mp ihm with h | h
        · rw [h]
          exact List.mem_cons_of_mem _ (List.mem_cons_self _ _)
        · exact List.mem_cons_of_mem _ (List.mem_cons_of_mem _ h)
      · intro y hy
        rcases List.mem_cons.mp hy with rfl | hy'
        · exact le_of_lt
            (lt_of_le_of_lt (ihmin x (List.mem_cons_self _ _)) hfx)
        · exact ihmin y hy'
    · have hstep : firstMinAux f (x :: xs) b = firstMinAux f xs b := by
        show firstMinAux f xs (if f x < f b then x else b) = _
        rw [if_neg hfx]
      obtain ⟨ihm, ihmin⟩ := ih b
      rw [hstep]
      constructor
      · rcases List.mem_cons.mp ihm with h | h
        · rw [h]
          exact List.mem_cons_self _ _
        · exact List.mem_cons_of_mem _ (List.mem_cons_of_mem _ h)
      · intro y hy
        rcases List.mem_cons.mp hy with rfl | hy'
        · exact ihmin y (List.mem_cons_self _ _)
        · rcases List.mem_cons.mp hy' with rfl | hy2
          · exact (ihmin b (List.mem_cons_self _ _)).trans
              (le_of_not_lt hfx)
          · exact ihmin y (List.mem_cons_of_mem _ hy2)

/-- The deterministic first-minimal-element scan, one concrete selector. -/
def firstMinSel : MinSel where
  sel l f :=
    match l with
    | [] => (0, 0)
    | x :: xs => firstMinAux f xs x
  sel_mem l f h := by
    match l with
    | [] => exact absurd rfl h
    | x :: xs => exact (firstMinAux_spec f xs x).1
  sel_min l f h := by
    match l with
    | [] => exact absurd rfl h
    | x :: xs => exact (firstMinAux_spec f xs x).2

end Xcomish

namespace Xcomish

/-! ### C7: invalid goals -/

/-- **C7 counterexample.** The `start == goal` shortcut precedes the goal
validity check, so `astar` on a non-walkable cell equal to both start and
goal returns the single-cell path, not the empty result the claim
demands. -/
theorem astar_selfgoal_nonwalkable :
    (⟨1, 1, fun _ _ => false, fun _ _ => false, fun _ => none, ∅, ∅⟩ :
      Grid).walkable 0 0 = false ∧
    astar firstMinSel
      ⟨1, 1, fun _ _ => false, fun _ _ => false, fun _ => none, ∅, ∅⟩
      (0, 0) (0, 0) none = [(0, 0)] :=
  ⟨rfl, rfl⟩

/-- **C7 (amended).** For every start distinct from the goal and every
goal that is out of bounds or terrain-non-walkable, `astar` returns the
empty result; when start equals goal it returns `[start]` regardless of
the goal's validity (the shortcut precedes the validity check). -/
theorem astar_bad_goal (ms : MinSel) (g : Grid) (s t : Cell)
    (ml : Option ℕ)
    (hbad : ¬(g.inBounds t.1 t.2 = true ∧ g.walkable t.2 t.1 = true)) :
    (s ≠ t → astar ms g s t ml = []) ∧ (s = t → astar ms g s t ml = [s]) := by
  constructor
  · intro hst
    unfold astar
    rw [if_neg hst, if_pos hbad]
  · intro hst
    unfold astar
    rw [if_pos hst]

/-- Closed instantiation of `astar_bad_goal`: a 2×1 grid whose right cell
is non-walkable. -/
theorem astar_bad_goal_witness :
    ((0, 0) ≠ ((1 : ℤ), (0 : ℤ)) →
      astar firstMinSel
        ⟨2, 1, fun _ x => decide (x = 0), fun _ _ => false, fun _ => none,
          ∅, ∅⟩ (0, 0) (1, 0) none = []) ∧
    ((0, 0) = ((1 : ℤ), (0 : ℤ)) →
      astar firstMinSel
        ⟨2, 1, fun _ x => decide (x = 0), fun _ _ => false, fun _ => none,
          ∅, ∅⟩ (0, 0) (1, 0) none = [(0, 0)]) :=
  astar_bad_goal firstMinSel
    ⟨2, 1, fun _ x => decide (x = 0), fun _ _ => false, fun _ => none, ∅, ∅⟩
    (0, 0) (1, 0) none (by decide)

end Xcomish

namespace Xcomish

/-! ### C4: astar returns shortest valid paths

`ValidP g s t p` is the path predicate of the claim: `p` runs from `s` to
`t` along 4-adjacent cells, and every cell after the first is in bounds,
terrain-walkable and unoccupied except that `s` and `t` are exempt from
the occupancy test — exactly the source's neighbour filter
(`astarOkCell`). -/

/-- A valid astar path from `s` to `t`. -/
def ValidP (g : Grid) (s t : Cell) (p : List Cell) : Prop :=
  p.head? = some s ∧ p.getLast? = some t ∧ List.Chain' Adjacent p ∧
    ∀ c ∈ p.tail, astarOkCell g s t c

/-- Reachability within `n` steps along astar-admissible cells. -/
def AReach (g : Grid) (s t : Cell) (n : ℕ) (z : Cell) : Prop :=
  ReachN (astarOkCell g s t) s n z

/-- The number of distinct in-bounds cells of the grid. -/
def boxCard (g : Grid) : ℕ := (boxList g).toFinset.card

/-- Cells keyed in `g_score` but no longer on the frontier: the closed
set of the astar loop.  Its cardinality drives the loop measure. -/
def closedCardA (gm : List (Cell × ℕ)) (op : List Cell) : ℕ :=
  ((akeys gm).toFinset \ op.toFinset).card

theorem manhattan_self (a : Cell) : manhattan a a = 0 := by
  unfold manhattan
  omega

theorem manhattan_adjacent {a b : Cell} (h : Adjacent a b) :
    manhattan a b = 1 := by
  unfold Adjacent at h
  unfold manhattan
  omega

theorem manhattan_triangle (a b c : Cell) :
    manhattan a c ≤ manhattan a b + manhattan b c := by
  unfold manhattan
  omega

/-- Like `adjacent_mem_neighbors4` but with no bounds condition on the
source cell: the border guard on each axis is implied by the bounds of the
adjacent cell itself. -/
theorem adjacent_inb_mem_neighbors4 (g : Grid) (x y : ℤ) (d : Cell)
    (hd : g.inBounds d.1 d.2 = true) (hadj : Adjacent (x, y) d) :
    d ∈ g.neighbors4 x y := by
  unfold Grid.inBounds at hd
  simp only [Bool.and_eq_true, decide_eq_true_eq] at hd
  rw [mem_neighbors4_iff]
  obtain ⟨u, v⟩ := d
  simp only at hd
  unfold Adjacent at hadj
  simp only at hadj
  rcases hadj with ⟨h1, h2⟩ | ⟨h1, h2⟩ | ⟨h1, h2⟩ | ⟨h1, h2⟩
  · exact Or.inl ⟨by rw [Prod.mk.injEq]; omega, by omega⟩
  · exact Or.inr (Or.inl ⟨by rw [Prod.mk.injEq]; omega, by omega⟩)
  · exact Or.inr (Or.inr (Or.inl ⟨by rw [Prod.mk.injEq]; omega, by omega⟩))
  · exact Or.inr (Or.inr (Or.inr ⟨by rw [Prod.mk.injEq]; omega, by omega⟩))

theorem neighbors4_nodup (g : Grid) (x y : ℤ) : (g.neighbors4 x y).Nodup := by
  unfold Grid.neighbors4
  by_cases h1 : 0 < x <;> by_cases h2 : x < g.w - 1 <;>
    by_cases h3 : 0 < y <;> by_cases h4 : y < g.h - 1 <;>
    simp [h1, h2, h3, h4, Prod.mk.injEq] <;> omega

theorem self_not_mem_neighbors4 (g : Grid) (x y : ℤ) :
    (x, y) ∉ g.neighbors4 x y := by
  rw [mem_neighbors4_iff]
  simp only [Prod.mk.injEq, not_or, not_and]
  omega

theorem aReach_validP {g : Grid} {s t : Cell} {m : ℕ} :
    AReach g s t m t ↔ ∃ p, ValidP g s t p ∧ p.length ≤ m + 1 := by
  unfold AReach ReachN ValidP
  constructor
  · rintro ⟨p, h1, h2, h3, h4, h5⟩
    exact ⟨p, ⟨h1, h2, h3, h4⟩, h5⟩
  · rintro ⟨p, ⟨h1, h2, h3, h4⟩, h5⟩
    exact ⟨p, h1, h2, h3, h4, h5⟩

theorem validP_length_pos {g : Grid} {s t : Cell} {p : List Cell}
    (h : ValidP g s t p) : 0 < p.length := by
  obtain ⟨h1, _, _, _⟩ := h
  cases p with
  | nil => cases h1
  | cons a q => simp

theorem validP_aReach {g : Grid} {s t : Cell} {p : List Cell}
    (h : ValidP g s t p) : AReach g s t (p.length - 1) t := by
  have hpos := validP_length_pos h
  obtain ⟨h1, h2, h3, h4⟩ := h
  refine ⟨p, h1, h2, h3, h4, by omega⟩

/-- When start and goal differ, any valid path puts the goal in its tail,
so the goal itself must pass the admissibility test. -/
theorem validP_goal_ok {g : Grid} {s t : Cell} {p : List Cell}
    (hst : s ≠ t) (h : ValidP g s t p) : astarOkCell g s t t := by
  obtain ⟨h1, h2, h3, h4⟩ := h
  cases p with
  | nil => cases h1
  | cons a q =>
    have ha : a = s := by simpa using h1
    cases q with
    | nil =>
      have hat : a = t := by simpa using h2
      exact absurd (ha ▸ hat) hst
    | cons b r =>
      apply h4
      rw [List.getLast?_cons_cons] at h2
      obtain ⟨hne, heq⟩ := List.mem_getLast?_eq_getLast h2
      exact heq ▸ List.getLast_mem hne

/-- The guard chain of `relaxPush` is exactly the admissibility test plus
the improvement test. -/
theorem relaxPush_eq (g : Grid) (s t cur : Cell)
    (st : List Cell × List (Cell × Cell) × List (Cell × ℕ) × List (Cell × ℕ))
    (n : Cell) :
    relaxPush g s t cur st n =
      if astarOkCell g s t n ∧
          (alookup st.2.2.1 cur).getD 0 + 1 < (alookup st.2.2.1 n).getD 1000000
      then ((if n ∈ st.1 then st.1 else st.1 ++ [n]),
        aupdate st.2.1 n cur,
        aupdate st.2.2.1 n ((alookup st.2.2.1 cur).getD 0 + 1),
        aupdate st.2.2.2 n ((alookup st.2.2.1 cur).getD 0 + 1 + manhattan n t))
      else st := by
  unfold relaxPush
  by_cases h1 : g.inBounds n.1 n.2 = true
  · rw [if_neg (not_not_intro h1)]
    by_cases h2 : g.walkable n.2 n.1 = true
    · rw [if_neg (not_not_intro h2)]
      by_cases h3 : g.occupants n = none ∨ n = s ∨ n = t
      · have hg : ¬((g.occupants n).isSome ∧ n ≠ s ∧ n ≠ t) := by
          rcases h3 with h | h | h
          · intro hc
            rw [h] at hc
            exact absurd hc.1 (by simp)
          · intro hc
            exact hc.2.1 h
          · intro hc
            exact hc.2.2 h
        rw [if_neg hg]
        by_cases h4 : (alookup st.2.2.1 cur).getD 0 + 1 <
            (alookup st.2.2.1 n).getD 1000000
        · have hok : astarOkCell g s t n := by
            unfold astarOkCell
            exact ⟨h1, h2, h3⟩
          have hc1 : astarOkCell g s t n ∧
              (alookup st.2.2.1 cur).getD 0 + 1 <
                (alookup st.2.2.1 n).getD 1000000 := ⟨hok, h4⟩
          rw [if_pos h4, if_pos hc1]
        · have hc2 : ¬(astarOkCell g s t n ∧
              (alookup st.2.2.1 cur).getD 0 + 1 <
                (alookup st.2.2.1 n).getD 1000000) := fun hc => h4 hc.2
          rw [if_neg h4, if_neg hc2]
      · push_neg at h3
        obtain ⟨hnone, hs, ht⟩ := h3
        have hp3 : (g.occupants n).isSome ∧ n ≠ s ∧ n ≠ t :=
          ⟨Option.ne_none_iff_isSome.mp hnone, hs, ht⟩
        have hn3 : ¬(astarOkCell g s t n ∧
            (alookup st.2.2.1 cur).getD 0 + 1 <
              (alookup st.2.2.1 n).getD 1000000) := fun hc => by
          rcases hc.1.2.2 with h | h | h
          exacts [hnone h, hs h, ht h]
        rw [if_pos hp3, if_neg hn3]
    · have hn2 : ¬(astarOkCell g s t n ∧
          (alookup st.2.2.1 cur).getD 0 + 1 <
            (alookup st.2.2.1 n).getD 1000000) := fun hc => h2 hc.1.2.1
      rw [if_pos h2, if_neg hn2]
  · have hn1 : ¬(astarOkCell g s t n ∧
        (alookup st.2.2.1 cur).getD 0 + 1 <
          (alookup st.2.2.1 n).getD 1000000) := fun hc => h1 hc.1.1
    rw [if_pos h1, if_neg hn1]

/-- Pointwise characterization of the neighbour fold of one astar
iteration: since the expanded node is not among its own neighbours and
the neighbour list has no duplicates, each neighbour is relaxed against
the pre-fold `g_score`, with the constant tentative value
`g_score[cur] + 1`. -/
theorem relaxPush_fold (g : Grid) (s t cur : Cell) :
    ∀ (ns : List Cell), ns.Nodup → cur ∉ ns →
    ∀ (op : List Cell) (came : List (Cell × Cell)) (gm fm : List (Cell × ℕ))
      (op' : List Cell) (came' : List (Cell × Cell))
      (gm' fm' : List (Cell × ℕ)),
      ns.foldl (relaxPush g s t cur) (op, came, gm, fm) =
        (op', came', gm', fm') →
      ((∀ c, alookup gm' c =
          if c ∈ ns ∧ astarOkCell g s t c ∧
              (alookup gm cur).getD 0 + 1 < (alookup gm c).getD 1000000
          then some ((alookup gm cur).getD 0 + 1) else alookup gm c) ∧
       (∀ c, alookup came' c =
          if c ∈ ns ∧ astarOkCell g s t c ∧
              (alookup gm cur).getD 0 + 1 < (alookup gm c).getD 1000000
          then some cur else alookup came c) ∧
       (∀ c, alookup fm' c =
          if c ∈ ns ∧ astarOkCell g s t c ∧
              (alookup gm cur).getD 0 + 1 < (alookup gm c).getD 1000000
          then some ((alookup gm cur).getD 0 + 1 + manhattan c t)
          else alookup fm c) ∧
       (∀ c, c ∈ op' ↔ c ∈ op ∨
          (c ∈ ns ∧ astarOkCell g s t c ∧
            (alookup gm cur).getD 0 + 1 < (alookup gm c).getD 1000000)) ∧
       (op.Nodup → op'.Nodup)) := by
  intro ns
  induction ns with
  | nil =>
    intro _ _ op came gm fm op' came' gm' fm' hfold
    rw [List.foldl_nil, Prod.mk.injEq, Prod.mk.injEq, Prod.mk.injEq] at hfold
    obtain ⟨ho, hc, hg, hf⟩ := hfold
    subst ho; subst hc; subst hg; subst hf
    refine ⟨?_, ?_, ?_, ?_, fun h => h⟩
    · intro c
      rw [if_neg (fun hcc => by simp at hcc)]
    · intro c
      rw [if_neg (fun hcc => by simp at hcc)]
    · intro c
      rw [if_neg (fun hcc => by simp at hcc)]
    · intro c
      simp
  | cons n rest ih =>
    intro hnd hcur op came gm fm op' came' gm' fm' hfold
    have hnrest : n ∉ rest := (List.nodup_cons.mp hnd).1
    have hndr : rest.Nodup := (List.nodup_cons.mp hnd).2
    have hcurn : cur ≠ n := fun h => hcur (h ▸ List.mem_cons_self n rest)
    have hcurr : cur ∉ rest := fun h => hcur (List.mem_cons_of_mem n h)
    rw [List.foldl_cons, relaxPush_eq] at hfold
    by_cases hcond : astarOkCell g s t n ∧
        (alookup gm cur).getD 0 + 1 < (alookup gm n).getD 1000000
    · rw [if_pos hcond] at hfold
      obtain ⟨hgm0, hcame0, hfm0, hop0, hnd0⟩ :=
        ih hndr hcurr _ _ _ _ _ _ _ _ hfold
      have hg1cur : alookup (aupdate gm n ((alookup gm cur).getD 0 + 1)) cur
          = alookup gm cur := by
        rw [alookup_aupdate, if_neg hcurn]
      refine ⟨?_, ?_, ?_, ?_, ?_⟩
      · intro c
        have hc0 := hgm0 c
        by_cases hc : c = n
        · subst hc
          rw [if_neg (fun hcc => hnrest hcc.1)] at hc0
          rw [alookup_aupdate] at hc0
          rw [if_pos rfl] at hc0
          rw [hc0, if_pos ⟨List.mem_cons_self _ _, hcond.1, hcond.2⟩]
        · have hgc : alookup (aupdate gm n ((alookup gm cur).getD 0 + 1)) c
              = alookup gm c := by
            rw [alookup_aupdate, if_neg hc]
          rw [hg1cur, hgc] at hc0
          rw [hc0]
          exact if_congr (by simp [List.mem_cons, hc]) rfl rfl
      · intro c
        have hc0 := hcame0 c
        by_cases hc : c = n
        · subst hc
          rw [if_neg (fun hcc => hnrest hcc.1)] at hc0
          rw [alookup_aupdate] at hc0
          rw [if_pos rfl] at hc0
          rw [hc0, if_pos ⟨List.mem_cons_self _ _, hcond.1, hcond.2⟩]
        · have hgc : alookup (aupdate gm n ((alookup gm cur).getD 0 + 1)) c
              = alookup gm c := by
            rw [alookup_aupdate, if_neg hc]
          have hcc : alookup (aupdate came n cur) c = alookup came c := by
            rw [alookup_aupdate, if_neg hc]
          rw [hg1cur, hgc, hcc] at hc0
          rw [hc0]
          exact if_congr (by simp [List.mem_cons, hc]) rfl rfl
      · intro c
        have hc0 := hfm0 c
        by_cases hc : c = n
        · subst hc
          rw [if_neg (fun hcc => hnrest hcc.1)] at hc0
          rw [alookup_aupdate] at hc0
          rw [if_pos rfl] at hc0
          rw [hc0, if_pos ⟨List.mem_cons_self _ _, hcond.1, hcond.2⟩]
        · have hgc : alookup (aupdate gm n ((alookup gm cur).getD 0 + 1)) c
              = alookup gm c := by
            rw [alookup_aupdate, if_neg hc]
          have hfc : alookup
              (aupdate fm n ((alookup gm cur).getD 0 + 1 + manhattan n t)) c
              = alookup fm c := by
            rw [alookup_aupdate, if_neg hc]
          rw [hg1cur, hgc, hfc] at hc0
          rw [hc0]
          exact if_congr (by simp [List.mem_cons, hc]) rfl rfl
      · intro c
        have hc0 := hop0 c
        rw [hg1cur] at hc0
        have hmem1 : c ∈ (if n ∈ op then op else op ++ [n]) ↔
            c ∈ op ∨ c = n := by
          by_cases hn : n ∈ op
          · rw [if_pos hn]
            constructor
            · exact fun h => Or.inl h
            · rintro (h | rfl)
              · exact h
              · exact hn
          · rw [if_neg hn]
            simp [List.mem_append]
        rw [hmem1] at hc0
        by_cases hc : c = n
        · subst hc
          rw [hc0]
          constructor
          · intro _
            exact Or.inr ⟨List.mem_cons_self _ _, hcond.1, hcond.2⟩
          · intro _
            exact Or.inl (Or.inr rfl)
        · have hgc : alookup (aupdate gm n ((alookup gm cur).getD 0 + 1)) c
              = alookup gm c := by
            rw [alookup_aupdate, if_neg hc]
          rw [hgc] at hc0
          rw [hc0]
          constructor
          · rintro ((h | rfl) | h)
            · exact Or.inl h
            · exact absurd rfl hc
            · exact Or.inr ⟨List.mem_cons_of_mem _ h.1, h.2⟩
          · rintro (h | h)
            · exact Or.inl (Or.inl h)
            · rcases List.mem_cons.mp h.1 with rfl | hr
              · exact absurd rfl hc
              · exact Or.inr ⟨hr, h.2⟩
      · intro hndop
        apply hnd0
        by_cases hn : n ∈ op
        · simpa [hn] using hndop
        · simp [hn, List.nodup_append, hndop]
    · rw [if_neg hcond] at hfold
      obtain ⟨hgm0, hcame0, hfm0, hop0, hnd0⟩ :=
        ih hndr hcurr _ _ _ _ _ _ _ _ hfold
      refine ⟨?_, ?_, ?_, ?_, hnd0⟩
      · intro c
        rw [hgm0 c]
        refine if_congr ?_ rfl rfl
        constructor
        · intro h
          exact ⟨List.mem_cons_of_mem _ h.1, h.2⟩
        · rintro ⟨h1, h2⟩
          rcases List.mem_cons.mp h1 with rfl | hr
          · exact absurd h2 hcond
          · exact ⟨hr, h2⟩
      · intro c
        rw [hcame0 c]
        refine if_congr ?_ rfl rfl
        constructor
        · intro h
          exact ⟨List.mem_cons_of_mem _ h.1, h.2⟩
        · rintro ⟨h1, h2⟩
          rcases List.mem_cons.mp h1 with rfl | hr
          · exact absurd h2 hcond
          · exact ⟨hr, h2⟩
      · intro c
        rw [hfm0 c]
        refine if_congr ?_ rfl rfl
        constructor
        · intro h
          exact ⟨List.mem_cons_of_mem _ h.1, h.2⟩
        · rintro ⟨h1, h2⟩
          rcases List.mem_cons.mp h1 with rfl | hr
          · exact absurd h2 hcond
          · exact ⟨hr, h2⟩
      · intro c
        rw [hop0 c]
        constructor
        · rintro (h | h)
          · exact Or.inl h
          · exact Or.inr ⟨List.mem_cons_of_mem _ h.1, h.2⟩
        · rintro (h | h)
          · exact Or.inl h
          · rcases List.mem_cons.mp h.1 with rfl | hr
            · exact absurd h.2 hcond
            · exact Or.inr ⟨hr, h.2⟩

/-- The astar loop invariant over the state
`(open_set, came_from, g_score, f_score)`.  "Closed" means keyed in
`g_score` but absent from the frontier. -/
structure AInv (g : Grid) (s t : Cell) (op : List Cell)
    (came : List (Cell × Cell)) (gm fm : List (Cell × ℕ)) : Prop where
  sKey : alookup gm s = some 0
  openKey : ∀ c ∈ op, (alookup gm c).isSome
  openNodup : op.Nodup
  fval : ∀ c v, alookup gm c = some v → alookup fm c = some (v + manhattan c t)
  domOk : ∀ c, (alookup gm c).isSome → c = s ∨ astarOkCell g s t c
  sound : ∀ c v, alookup gm c = some v → AReach g s t v c
  cameS : alookup came s = none
  cameG : ∀ c p, alookup came c = some p → Adjacent p c ∧
    ∃ vp vc, alookup gm p = some vp ∧ alookup gm c = some vc ∧ vp < vc
  cameClosed : ∀ c p, alookup came c = some p →
    (alookup gm p).isSome ∧ p ∉ op
  cameTotal : ∀ c, (alookup gm c).isSome → c ≠ s → (alookup came c).isSome
  tOpen : (alookup gm t).isSome → t ∈ op
  closedNbrs : ∀ c v, alookup gm c = some v → c ∉ op →
    ∀ d ∈ g.neighbors4 c.1 c.2, astarOkCell g s t d →
      ∃ vd, alookup gm d = some vd ∧ vd ≤ v + 1
  closedSettled : ∀ c v, alookup gm c = some v → c ∉ op →
    ∀ m, AReach g s t m c → v ≤ m
  gBound : ∀ c v, alookup gm c = some v → v ≤ closedCardA gm op

/-- Cover: along any admissible route, either the endpoint is already
closed with a no-larger key, or a frontier node sits on the route within
budget. -/
theorem ainv_cover {g : Grid} {s t : Cell} {op : List Cell}
    {came : List (Cell × Cell)} {gm fm : List (Cell × ℕ)}
    (inv : AInv g s t op came gm fm) :
    ∀ m z, AReach g s t m z →
      (∃ vz, alookup gm z = some vz ∧ z ∉ op ∧ vz ≤ m) ∨
      (∃ y vy, y ∈ op ∧ alookup gm y = some vy ∧ vy + manhattan y z ≤ m) := by
  intro m
  induction m with
  | zero =>
    intro z hz
    have hzs : z = s := reachN_zero hz
    subst hzs
    by_cases hsop : z ∈ op
    · refine Or.inr ⟨z, 0, hsop, inv.sKey, ?_⟩
      rw [manhattan_self]
    · exact Or.inl ⟨0, inv.sKey, hsop, le_refl 0⟩
  | succ m ih =>
    intro z hz
    rcases reachN_succ_elim hz with hz' | ⟨y', hy', hadj, hokz⟩
    · rcases ih z hz' with ⟨vz, h1, h2, h3⟩ | ⟨y, vy, h1, h2, h3⟩
      · exact Or.inl ⟨vz, h1, h2, by omega⟩
      · exact Or.inr ⟨y, vy, h1, h2, by omega⟩
    · rcases ih y' hy' with ⟨vy', h1, h2, h3⟩ | ⟨y, vy, h1, h2, h3⟩
      · have hzmem : z ∈ g.neighbors4 y'.1 y'.2 :=
          adjacent_inb_mem_neighbors4 g y'.1 y'.2 z hokz.1 hadj
        obtain ⟨vz, hvz, hle⟩ := inv.closedNbrs y' vy' h1 h2 z hzmem hokz
        by_cases hzop : z ∈ op
        · refine Or.inr ⟨z, vz, hzop, hvz, ?_⟩
          rw [manhattan_self]
          omega
        · exact Or.inl ⟨vz, hvz, hzop, by omega⟩
      · refine Or.inr ⟨y, vy, h1, h2, ?_⟩
        have ht := manhattan_triangle y y' z
        have ha := manhattan_adjacent hadj
        omega

/-- The key property of the frontier scan: the g-score of the selected
minimal-f node already equals its final distance (Manhattan is a
consistent heuristic). -/
theorem ainv_popOpt {g : Grid} {s t : Cell} {op : List Cell}
    {came : List (Cell × Cell)} {gm fm : List (Cell × ℕ)}
    (ms : MinSel) (inv : AInv g s t op came gm fm) (hne : op ≠ [])
    (cur : Cell)
    (hcur : cur = ms.sel op (fun c => (alookup fm c).getD 10000000))
    {vcur : ℕ} (hvcur : alookup gm cur = some vcur) :
    ∀ m, AReach g s t m cur → vcur ≤ m := by
  intro m hreach
  have hmem : cur ∈ op := by
    rw [hcur]
    exact ms.sel_mem op _ hne
  rcases ainv_cover inv m cur hreach with ⟨vz, h1, h2, h3⟩ |
    ⟨y, vy, hy1, hy2, hy3⟩
  · exact absurd hmem h2
  · have hmin : (alookup fm cur).getD 10000000 ≤
        (alookup fm y).getD 10000000 := by
      rw [hcur]
      exact ms.sel_min op (fun c => (alookup fm c).getD 10000000) hne y hy1
    rw [inv.fval cur vcur hvcur, inv.fval y vy hy2] at hmin
    simp only [Option.getD_some] at hmin
    have ht := manhattan_triangle y cur t
    omega

theorem mem_closedA_iff (gm : List (Cell × ℕ)) (op : List Cell) (c : Cell) :
    c ∈ (akeys gm).toFinset \ op.toFinset ↔
      (alookup gm c).isSome ∧ c ∉ op := by
  rw [Finset.mem_sdiff, List.mem_toFinset, List.mem_toFinset, mem_akeys_iff]

theorem closedCardA_le {g : Grid} {s t : Cell} {gm : List (Cell × ℕ)}
    (op : List Cell)
    (hdom : ∀ c, (alookup gm c).isSome → c = s ∨ astarOkCell g s t c) :
    closedCardA gm op ≤ boxCard g + 1 := by
  unfold closedCardA boxCard
  have hsub : (akeys gm).toFinset \ op.toFinset ⊆
      insert s (boxList g).toFinset := by
    intro c hc
    rw [mem_closedA_iff] at hc
    rcases hdom c hc.1 with rfl | hok
    · exact Finset.mem_insert_self _ _
    · apply Finset.mem_insert_of_mem
      rw [List.mem_toFinset, mem_boxList_iff]
      exact hok.1
  calc ((akeys gm).toFinset \ op.toFinset).card
      ≤ (insert s (boxList g).toFinset).card := Finset.card_le_card hsub
    _ ≤ (boxList g).toFinset.card + 1 := Finset.card_insert_le _ _

/-- With a keyed frontier node present, the closed set is strictly
smaller than the in-bounds box plus the start cell. -/
theorem closedCardA_lt {g : Grid} {s t : Cell} {gm : List (Cell × ℕ)}
    {op : List Cell}
    (hdom : ∀ c, (alookup gm c).isSome → c = s ∨ astarOkCell g s t c)
    (cur : Cell) (hcur : cur ∈ op) (hkey : (alookup gm cur).isSome) :
    closedCardA gm op + 1 ≤ boxCard g + 1 := by
  unfold closedCardA boxCard
  have hcc : cur ∉ (akeys gm).toFinset \ op.toFinset := by
    rw [mem_closedA_iff]
    exact fun h => h.2 hcur
  have hsub : insert cur ((akeys gm).toFinset \ op.toFinset) ⊆
      insert s (boxList g).toFinset := by
    intro c hc
    rcases Finset.mem_insert.mp hc with rfl | hc
    · rcases hdom c hkey with rfl | hok
      · exact Finset.mem_insert_self _ _
      · apply Finset.mem_insert_of_mem
        rw [List.mem_toFinset, mem_boxList_iff]
        exact hok.1
    · rw [mem_closedA_iff] at hc
      rcases hdom c hc.1 with rfl | hok
      · exact Finset.mem_insert_self _ _
      · apply Finset.mem_insert_of_mem
        rw [List.mem_toFinset, mem_boxList_iff]
        exact hok.1
  calc ((akeys gm).toFinset \ op.toFinset).card + 1
      = (insert cur ((akeys gm).toFinset \ op.toFinset)).card :=
        (Finset.card_insert_of_not_mem hcc).symm
    _ ≤ (insert s (boxList g).toFinset).card := Finset.card_le_card hsub
    _ ≤ (boxList g).toFinset.card + 1 := Finset.card_insert_le _ _

/-- Path reconstruction is correct: following `came_from` from a keyed
cell yields a valid path from the start, no longer than the cell's
g-score plus one. -/
theorem rebuild_valid {g : Grid} {s t : Cell} {came : List (Cell × Cell)}
    {gm : List (Cell × ℕ)}
    (hsKey : alookup gm s = some 0)
    (hcameS : alookup came s = none)
    (hcameG : ∀ c p, alookup came c = some p → Adjacent p c ∧
      ∃ vp vc, alookup gm p = some vp ∧ alookup gm c = some vc ∧ vp < vc)
    (hcameTotal : ∀ c, (alookup gm c).isSome → c ≠ s →
      (alookup came c).isSome)
    (hdom : ∀ c, (alookup gm c).isSome → c = s ∨ astarOkCell g s t c) :
    ∀ fuel c vc, alookup gm c = some vc → vc ≤ fuel →
      (rebuild came fuel c).head? = some s ∧
      (rebuild came fuel c).getLast? = some c ∧
      List.Chain' Adjacent (rebuild came fuel c) ∧
      (∀ d ∈ (rebuild came fuel c).tail, astarOkCell g s t d) ∧
      (rebuild came fuel c).length ≤ vc + 1 := by
  intro fuel
  induction fuel with
  | zero =>
    intro c vc hvc hle
    have hnone : alookup came c = none := by
      cases hcame : alookup came c with
      | none => rfl
      | some p =>
        obtain ⟨_, vp, vc', hp, hc', hlt⟩ := hcameG c p hcame
        rw [hvc] at hc'
        have hvcc : vc = vc' := Option.some.inj hc'
        omega
    have hcs : c = s := by
      by_contra hne
      have hx := hcameTotal c (by rw [hvc]; exact rfl) hne
      rw [hnone] at hx
      exact absurd hx (by simp)
    subst hcs
    have hv0 : vc = 0 := by omega
    subst hv0
    exact ⟨rfl, rfl, List.chain'_singleton _, by simp [rebuild],
      by simp [rebuild]⟩
  | succ fuel ih =>
    intro c vc hvc hle
    cases hcame : alookup came c with
    | none =>
      have hcs : c = s := by
        by_contra hne
        have hx := hcameTotal c (by rw [hvc]; exact rfl) hne
        rw [hcame] at hx
        exact absurd hx (by simp)
      subst hcs
      have hres : rebuild came (fuel + 1) c = [c] := by
        simp only [rebuild]
        rw [hcame]
      rw [hres]
      exact ⟨rfl, rfl, List.chain'_singleton _, by simp, by simp⟩
    | some p =>
      obtain ⟨hadjpc, vp, vc', hp, hc', hlt⟩ := hcameG c p hcame
      have hvcc : vc = vc' := by
        rw [hvc] at hc'
        exact Option.some.inj hc'
      subst hvcc
      have hvp : vp ≤ fuel := by omega
      obtain ⟨ih1, ih2, ih3, ih4, ih5⟩ := ih p vp hp hvp
      have hres : rebuild came (fuel + 1) c = rebuild came fuel p ++ [c] := by
        simp only [rebuild]
        rw [hcame]
      rw [hres]
      have hnn : rebuild came fuel p ≠ [] := by
        intro h
        rw [h] at ih1
        cases ih1
      refine ⟨?_, ?_, ?_, ?_, ?_⟩
      · rw [List.head?_append_of_ne_nil _ hnn]
        exact ih1
      · exact List.getLast?_concat _
      · rw [List.chain'_append]
        refine ⟨ih3, List.chain'_singleton _, ?_⟩
        intro x hx y hy
        rw [ih2, Option.mem_some_iff] at hx
        simp only [List.head?_cons, Option.mem_some_iff] at hy
        subst hx
        subst hy
        exact hadjpc
      · intro d hd
        rw [List.tail_append_singleton_of_ne_nil hnn] at hd
        rcases List.mem_append.mp hd with hd | hd
        · exact ih4 d hd
        · rw [List.mem_singleton] at hd
          subst hd
          have hcns : d ≠ s := by
            intro h
            rw [h, hcameS] at hcame
            cases hcame
          rcases hdom d (by rw [hvc]; exact rfl) with h | h
          · exact absurd h hcns
          · exact h
      · rw [List.length_append]
        simp only [List.length_cons, List.length_nil]
        omega

/-- One non-goal iteration of the astar loop preserves the invariant and
grows the closed set by exactly the expanded node. -/
theorem ainv_step (ms : MinSel) {g : Grid} {s t : Cell}
    (hsize : boxCard g + 2 < 1000000)
    {op : List Cell} {came : List (Cell × Cell)} {gm fm : List (Cell × ℕ)}
    (inv : AInv g s t op came gm fm) (hne : op ≠ [])
    (cur : Cell)
    (hcur : cur = ms.sel op (fun c => (alookup fm c).getD 10000000))
    (hcurt : cur ≠ t)
    {op' : List Cell} {came' : List (Cell × Cell)} {gm' fm' : List (Cell × ℕ)}
    (hfold : (g.neighbors4 cur.1 cur.2).foldl (relaxPush g s t cur)
        (op.erase cur, came, gm, fm) = (op', came', gm', fm')) :
    AInv g s t op' came' gm' fm' ∧
    closedCardA gm op + 1 ≤ closedCardA gm' op' ∧
    closedCardA gm' op' ≤ boxCard g + 1 := by
  have hcmem : cur ∈ op := by
    rw [hcur]
    exact ms.sel_mem op _ hne
  obtain ⟨vcur, hvcur⟩ := Option.isSome_iff_exists.mp (inv.openKey cur hcmem)
  have hpop : ∀ m, AReach g s t m cur → vcur ≤ m :=
    ainv_popOpt ms inv hne cur hcur hvcur
  have hnd4 : (g.neighbors4 cur.1 cur.2).Nodup := neighbors4_nodup g cur.1 cur.2
  have hcns : cur ∉ g.neighbors4 cur.1 cur.2 :=
    self_not_mem_neighbors4 g cur.1 cur.2
  have hernd : (op.erase cur).Nodup := inv.openNodup.erase cur
  obtain ⟨hgmL0, hcameL0, hfmL0, hopL0, hndL⟩ :=
    relaxPush_fold g s t cur (g.neighbors4 cur.1 cur.2) hnd4 hcns
      (op.erase cur) came gm fm op' came' gm' fm' hfold
  simp only [hvcur, Option.getD_some] at hgmL0 hcameL0 hfmL0 hopL0
  have hmemerase : ∀ c : Cell, c ∈ op.erase cur ↔ c ≠ cur ∧ c ∈ op :=
    fun c => inv.openNodup.mem_erase_iff
  have hadj4 : ∀ c ∈ g.neighbors4 cur.1 cur.2, Adjacent cur c :=
    fun c hc => mem_neighbors4_adjacent g cur.1 cur.2 c hc
  have hreachc : ∀ c ∈ g.neighbors4 cur.1 cur.2, astarOkCell g s t c →
      AReach g s t (vcur + 1) c :=
    fun c hc hok => reachN_step (inv.sound cur vcur hvcur) (hadj4 c hc) hok
  have hnotclosed : ∀ c, c ∈ g.neighbors4 cur.1 cur.2 →
      astarOkCell g s t c → vcur + 1 < (alookup gm c).getD 1000000 →
      ¬((alookup gm c).isSome ∧ c ∉ op) := by
    rintro c hcn hok hlt ⟨hk, hcl⟩
    obtain ⟨vc, hvc⟩ := Option.isSome_iff_exists.mp hk
    have hle := inv.closedSettled c vc hvc hcl (vcur + 1) (hreachc c hcn hok)
    rw [hvc] at hlt
    simp only [Option.getD_some] at hlt
    omega
  have hcurop' : cur ∉ op' := by
    intro h
    rcases (hopL0 cur).mp h with h1 | h2
    · exact ((hmemerase cur).mp h1).1 rfl
    · exact hcns h2.1
  have hgmcur' : alookup gm' cur = some vcur := by
    rw [hgmL0 cur, if_neg (fun h => hcns h.1)]
    exact hvcur
  have hkeep : ∀ c v, alookup gm c = some v → (alookup gm' c).isSome := by
    intro c v hv
    by_cases hcond : c ∈ g.neighbors4 cur.1 cur.2 ∧ astarOkCell g s t c ∧
        vcur + 1 < (alookup gm c).getD 1000000
    · rw [hgmL0 c, if_pos hcond]
      exact rfl
    · rw [hgmL0 c, if_neg hcond, hv]
      exact rfl
  have hcondS : ¬(s ∈ g.neighbors4 cur.1 cur.2 ∧ astarOkCell g s t s ∧
      vcur + 1 < (alookup gm s).getD 1000000) := by
    rintro ⟨_, _, hlt⟩
    rw [inv.sKey] at hlt
    simp only [Option.getD_some] at hlt
    omega
  have hsG : alookup gm' s = some 0 := by
    rw [hgmL0 s, if_neg hcondS]
    exact inv.sKey
  have hclosed' : ∀ c : Cell, ((alookup gm' c).isSome ∧ c ∉ op') ↔
      (((alookup gm c).isSome ∧ c ∉ op) ∨ c = cur) := by
    intro c
    by_cases hcc : c = cur
    · subst hcc
      constructor
      · intro _
        exact Or.inr rfl
      · intro _
        refine ⟨?_, hcurop'⟩
        rw [hgmcur']
        exact rfl
    · constructor
      · rintro ⟨hk', hno'⟩
        by_cases hcond : c ∈ g.neighbors4 cur.1 cur.2 ∧ astarOkCell g s t c ∧
            vcur + 1 < (alookup gm c).getD 1000000
        · exact absurd ((hopL0 c).mpr (Or.inr hcond)) hno'
        · rw [hgmL0 c, if_neg hcond] at hk'
          refine Or.inl ⟨hk', fun hcop => ?_⟩
          exact hno' ((hopL0 c).mpr (Or.inl ((hmemerase c).mpr ⟨hcc, hcop⟩)))
      · rintro (⟨hk, hno⟩ | hcc2)
        · have hcond : ¬(c ∈ g.neighbors4 cur.1 cur.2 ∧ astarOkCell g s t c ∧
              vcur + 1 < (alookup gm c).getD 1000000) :=
            fun h => hnotclosed c h.1 h.2.1 h.2.2 ⟨hk, hno⟩
          refine ⟨?_, ?_⟩
          · rw [hgmL0 c, if_neg hcond]
            exact hk
          · intro hc'
            rcases (hopL0 c).mp hc' with h1 | h2
            · exact hno ((hmemerase c).mp h1).2
            · exact hcond h2
        · exact absurd hcc2 hcc
  have hset : (akeys gm').toFinset \ op'.toFinset =
      insert cur ((akeys gm).toFinset \ op.toFinset) := by
    apply Finset.ext
    intro c
    rw [Finset.mem_insert, mem_closedA_iff, mem_closedA_iff, hclosed' c]
    tauto
  have hcurnotcl : cur ∉ (akeys gm).toFinset \ op.toFinset := by
    rw [mem_closedA_iff]
    exact fun h => h.2 hcmem
  have hK4 : closedCardA gm' op' = closedCardA gm op + 1 := by
    unfold closedCardA
    rw [hset, Finset.card_insert_of_not_mem hcurnotcl]
  have htent_le : vcur + 1 ≤ closedCardA gm' op' := by
    have := inv.gBound cur vcur hvcur
    omega
  have htent_lt : vcur + 1 < 1000000 := by
    have h1 := inv.gBound cur vcur hvcur
    have h2 := closedCardA_le op inv.domOk
    omega
  have hdom' : ∀ c, (alookup gm' c).isSome → c = s ∨ astarOkCell g s t c := by
    intro c hk'
    by_cases hcond : c ∈ g.neighbors4 cur.1 cur.2 ∧ astarOkCell g s t c ∧
        vcur + 1 < (alookup gm c).getD 1000000
    · exact Or.inr hcond.2.1
    · rw [hgmL0 c, if_neg hcond] at hk'
      exact inv.domOk c hk'
  have hOpenKey' : ∀ c ∈ op', (alookup gm' c).isSome := by
    intro c hc
    rcases (hopL0 c).mp hc with h1 | h2
    · obtain ⟨v, hv⟩ := Option.isSome_iff_exists.mp
        (inv.openKey c ((hmemerase c).mp h1).2)
      exact hkeep c v hv
    · rw [hgmL0 c, if_pos h2]
      exact rfl
  have hFval' : ∀ c v, alookup gm' c = some v →
      alookup fm' c = some (v + manhattan c t) := by
    intro c v hv
    by_cases hcond : c ∈ g.neighbors4 cur.1 cur.2 ∧ astarOkCell g s t c ∧
        vcur + 1 < (alookup gm c).getD 1000000
    · rw [hgmL0 c, if_pos hcond] at hv
      rw [hfmL0 c, if_pos hcond, Option.some.inj hv]
    · rw [hgmL0 c, if_neg hcond] at hv
      rw [hfmL0 c, if_neg hcond]
      exact inv.fval c v hv
  have hSound' : ∀ c v, alookup gm' c = some v → AReach g s t v c := by
    intro c v hv
    by_cases hcond : c ∈ g.neighbors4 cur.1 cur.2 ∧ astarOkCell g s t c ∧
        vcur + 1 < (alookup gm c).getD 1000000
    · rw [hgmL0 c, if_pos hcond] at hv
      rw [← Option.some.inj hv]
      exact hreachc c hcond.1 hcond.2.1
    · rw [hgmL0 c, if_neg hcond] at hv
      exact inv.sound c v hv
  have hCameS' : alookup came' s = none := by
    rw [hcameL0 s, if_neg hcondS]
    exact inv.cameS
  have hCameG' : ∀ c p, alookup came' c = some p → Adjacent p c ∧
      ∃ vp vc, alookup gm' p = some vp ∧ alookup gm' c = some vc ∧
        vp < vc := by
    intro c p hcp
    by_cases hcond : c ∈ g.neighbors4 cur.1 cur.2 ∧ astarOkCell g s t c ∧
        vcur + 1 < (alookup gm c).getD 1000000
    · rw [hcameL0 c, if_pos hcond] at hcp
      have hpc : p = cur := (Option.some.inj hcp).symm
      subst hpc
      refine ⟨hadj4 c hcond.1, vcur, vcur + 1, hgmcur', ?_, by omega⟩
      rw [hgmL0 c, if_pos hcond]
    · rw [hcameL0 c, if_neg hcond] at hcp
      obtain ⟨hadj, vp, vc, hp, hvc, hlt⟩ := inv.cameG c p hcp
      have hclp := inv.cameClosed c p hcp
      have hcondp : ¬(p ∈ g.neighbors4 cur.1 cur.2 ∧ astarOkCell g s t p ∧
          vcur + 1 < (alookup gm p).getD 1000000) :=
        fun h => hnotclosed p h.1 h.2.1 h.2.2 hclp
      refine ⟨hadj, vp, vc, ?_, ?_, hlt⟩
      · rw [hgmL0 p, if_neg hcondp]
        exact hp
      · rw [hgmL0 c, if_neg hcond]
        exact hvc
  have hCameClosed' : ∀ c p, alookup came' c = some p →
      (alookup gm' p).isSome ∧ p ∉ op' := by
    intro c p hcp
    by_cases hcond : c ∈ g.neighbors4 cur.1 cur.2 ∧ astarOkCell g s t c ∧
        vcur + 1 < (alookup gm c).getD 1000000
    · rw [hcameL0 c, if_pos hcond] at hcp
      have hpc : p = cur := (Option.some.inj hcp).symm
      subst hpc
      refine ⟨?_, hcurop'⟩
      rw [hgmcur']
      exact rfl
    · rw [hcameL0 c, if_neg hcond] at hcp
      obtain ⟨hkp, hnop⟩ := inv.cameClosed c p hcp
      have hcondp : ¬(p ∈ g.neighbors4 cur.1 cur.2 ∧ astarOkCell g s t p ∧
          vcur + 1 < (alookup gm p).getD 1000000) :=
        fun h => hnotclosed p h.1 h.2.1 h.2.2 ⟨hkp, hnop⟩
      refine ⟨?_, ?_⟩
      · rw [hgmL0 p, if_neg hcondp]
        exact hkp
      · intro hp'
        rcases (hopL0 p).mp hp' with h1 | h2
        · exact hnop ((hmemerase p).mp h1).2
        · exact hcondp h2
  have hCameTotal' : ∀ c, (alookup gm' c).isSome → c ≠ s →
      (alookup came' c).isSome := by
    intro c hk' hcs
    by_cases hcond : c ∈ g.neighbors4 cur.1 cur.2 ∧ astarOkCell g s t c ∧
        vcur + 1 < (alookup gm c).getD 1000000
    · rw [hcameL0 c, if_pos hcond]
      exact rfl
    · rw [hgmL0 c, if_neg hcond] at hk'
      rw [hcameL0 c, if_neg hcond]
      exact inv.cameTotal c hk' hcs
  have hTOpen' : (alookup gm' t).isSome → t ∈ op' := by
    intro hk'
    by_cases hcond : t ∈ g.neighbors4 cur.1 cur.2 ∧ astarOkCell g s t t ∧
        vcur + 1 < (alookup gm t).getD 1000000
    · exact (hopL0 t).mpr (Or.inr hcond)
    · rw [hgmL0 t, if_neg hcond] at hk'
      refine (hopL0 t).mpr (Or.inl ((hmemerase t).mpr
        ⟨fun h => hcurt h.symm, inv.tOpen hk'⟩))
  have hClosedNbrs' : ∀ c v, alookup gm' c = some v → c ∉ op' →
      ∀ d ∈ g.neighbors4 c.1 c.2, astarOkCell g s t d →
        ∃ vd, alookup gm' d = some vd ∧ vd ≤ v + 1 := by
    intro c v hv hno d hd hokd
    rcases (hclosed' c).mp ⟨by rw [hv]; exact rfl, hno⟩ with hold | hcc
    · have hcondc : ¬(c ∈ g.neighbors4 cur.1 cur.2 ∧ astarOkCell g s t c ∧
          vcur + 1 < (alookup gm c).getD 1000000) :=
        fun h => hnotclosed c h.1 h.2.1 h.2.2 hold
      rw [hgmL0 c, if_neg hcondc] at hv
      obtain ⟨vd, hvd, hle⟩ := inv.closedNbrs c v hv hold.2 d hd hokd
      by_cases hcondd : d ∈ g.neighbors4 cur.1 cur.2 ∧ astarOkCell g s t d ∧
          vcur + 1 < (alookup gm d).getD 1000000
      · refine ⟨vcur + 1, ?_, ?_⟩
        · rw [hgmL0 d, if_pos hcondd]
        · have hx := hcondd.2.2
          rw [hvd] at hx
          simp only [Option.getD_some] at hx
          omega
      · refine ⟨vd, ?_, hle⟩
        rw [hgmL0 d, if_neg hcondd]
        exact hvd
    · have hvv : v = vcur := by
        rw [hcc, hgmcur'] at hv
        exact (Option.some.inj hv).symm
      rw [hcc] at hd
      by_cases hcondd : d ∈ g.neighbors4 cur.1 cur.2 ∧ astarOkCell g s t d ∧
          vcur + 1 < (alookup gm d).getD 1000000
      · exact ⟨vcur + 1, by rw [hgmL0 d, if_pos hcondd], by omega⟩
      · have hnlt : ¬(vcur + 1 < (alookup gm d).getD 1000000) :=
          fun hlt => hcondd ⟨hd, hokd, hlt⟩
        push_neg at hnlt
        cases hgd : alookup gm d with
        | none =>
          rw [hgd] at hnlt
          simp only [Option.getD_none] at hnlt
          omega
        | some vd =>
          rw [hgd] at hnlt
          simp only [Option.getD_some] at hnlt
          refine ⟨vd, ?_, by omega⟩
          rw [hgmL0 d, if_neg hcondd]
          exact hgd
  have hClosedSettled' : ∀ c v, alookup gm' c = some v → c ∉ op' →
      ∀ m, AReach g s t m c → v ≤ m := by
    intro c v hv hno m hm
    rcases (hclosed' c).mp ⟨by rw [hv]; exact rfl, hno⟩ with hold | hcc
    · have hcondc : ¬(c ∈ g.neighbors4 cur.1 cur.2 ∧ astarOkCell g s t c ∧
          vcur + 1 < (alookup gm c).getD 1000000) :=
        fun h => hnotclosed c h.1 h.2.1 h.2.2 hold
      rw [hgmL0 c, if_neg hcondc] at hv
      exact inv.closedSettled c v hv hold.2 m hm
    · have hvv : v = vcur := by
        rw [hcc, hgmcur'] at hv
        exact (Option.some.inj hv).symm
      have hx := hpop m (hcc ▸ hm)
      omega
  have hGBound' : ∀ c v, alookup gm' c = some v →
      v ≤ closedCardA gm' op' := by
    intro c v hv
    by_cases hcond : c ∈ g.neighbors4 cur.1 cur.2 ∧ astarOkCell g s t c ∧
        vcur + 1 < (alookup gm c).getD 1000000
    · rw [hgmL0 c, if_pos hcond] at hv
      have hx := Option.some.inj hv
      omega
    · rw [hgmL0 c, if_neg hcond] at hv
      have hx := inv.gBound c v hv
      omega
  exact ⟨⟨hsG, hOpenKey', hndL hernd, hFval', hdom', hSound', hCameS',
      hCameG', hCameClosed', hCameTotal', hTOpen', hClosedNbrs',
      hClosedSettled', hGBound'⟩,
    by omega, closedCardA_le op' hdom'⟩

theorem toNat_mul_le (a b : ℤ) : a.toNat * b.toNat ≤ (a * b).toNat := by
  rcases le_or_lt a 0 with ha | ha
  · rw [Int.toNat_of_nonpos ha, Nat.zero_mul]
    exact Nat.zero_le _
  · rcases le_or_lt b 0 with hb | hb
    · rw [Int.toNat_of_nonpos hb, Nat.mul_zero]
      exact Nat.zero_le _
    · have hab : a * b = ((a.toNat * b.toNat : ℕ) : ℤ) := by
        push_cast
        rw [Int.toNat_of_nonneg (le_of_lt ha),
          Int.toNat_of_nonneg (le_of_lt hb)]
      rw [hab, Int.toNat_natCast]

theorem sum_map_length_const {α β : Type} (l : List α) (f : α → List β)
    (n : ℕ) (h : ∀ a ∈ l, (f a).length = n) :
    (List.map (List.length ∘ f) l).sum = l.length * n := by
  induction l with
  | nil => simp
  | cons a tl ih =>
    simp only [List.map_cons, List.sum_cons, List.length_cons,
      Function.comp_apply]
    rw [h a (List.mem_cons_self a tl),
      ih (fun b hb => h b (List.mem_cons_of_mem a hb))]
    ring

theorem length_boxList (g : Grid) :
    (boxList g).length = g.w.toNat * g.h.toNat := by
  unfold boxList
  rw [List.length_flatMap, sum_map_length_const (intRange 0 g.w) _ g.h.toNat
    (by
      intro x _
      rw [List.length_map]
      unfold intRange
      rw [List.length_map, List.length_range]
      omega)]
  unfold intRange
  rw [List.length_map, List.length_range]
  have h0 : g.w - 0 = g.w := by omega
  rw [h0]

theorem boxCard_le_wh (g : Grid) : boxCard g ≤ (g.w * g.h).toNat := by
  unfold boxCard
  calc (boxList g).toFinset.card
      ≤ (boxList g).length := (boxList g).toFinset_card_le
    _ = g.w.toNat * g.h.toNat := length_boxList g
    _ ≤ (g.w * g.h).toNat := toNat_mul_le g.w g.h

theorem closedCardA_init (s : Cell) (v : ℕ) :
    closedCardA [(s, v)] [s] = 0 := by
  unfold closedCardA
  simp [akeys]

/-- An empty frontier means the goal is unreachable. -/
theorem ainv_leaf {g : Grid} {s t : Cell}
    {came : List (Cell × Cell)} {gm fm : List (Cell × ℕ)}
    (inv : AInv g s t [] came gm fm) :
    ∀ m, ¬ AReach g s t m t := by
  intro m hm
  rcases ainv_cover inv m t hm with ⟨vz, h1, _, _⟩ | ⟨y, vy, hy1, _, _⟩
  · have hx := inv.tOpen (by rw [h1]; exact rfl)
    simp at hx
  · simp at hy1

/-- The invariant holds for the loop's initial state. -/
theorem ainv_init {g : Grid} {s t : Cell} (hst : s ≠ t) :
    AInv g s t [s] [] [(s, 0)] [(s, manhattan s t)] := by
  have hlook : ∀ c : Cell, alookup [(s, 0)] c =
      if c = s then some 0 else none := by
    intro c
    by_cases hc : c = s <;> simp [alookup, hc]
  have hkv : ∀ c v, alookup [(s, 0)] c = some v → c = s ∧ v = 0 := by
    intro c v h
    rw [hlook] at h
    by_cases hc : c = s
    · rw [if_pos hc] at h
      exact ⟨hc, (Option.some.inj h).symm⟩
    · rw [if_neg hc] at h
      cases h
  refine ⟨?_, ?_, ?_, ?_, ?_, ?_, ?_, ?_, ?_, ?_, ?_, ?_, ?_, ?_⟩
  · simp [alookup]
  · intro c hc
    rw [List.mem_singleton] at hc
    subst hc
    simp [alookup]
  · exact List.nodup_singleton s
  · intro c v h
    obtain ⟨rfl, rfl⟩ := hkv c v h
    simp [alookup]
  · intro c h
    obtain ⟨v, hv⟩ := Option.isSome_iff_exists.mp h
    exact Or.inl (hkv c v hv).1
  · intro c v h
    obtain ⟨rfl, rfl⟩ := hkv c v h
    exact reachN_self _ c 0
  · rfl
  · intro c p h
    simp [alookup] at h
  · intro c p h
    simp [alookup] at h
  · intro c h hcs
    obtain ⟨v, hv⟩ := Option.isSome_iff_exists.mp h
    exact absurd (hkv c v hv).1 hcs
  · intro h
    obtain ⟨v, hv⟩ := Option.isSome_iff_exists.mp h
    exact absurd (hkv t v hv).1 (fun hh => hst hh.symm)
  · intro c v h hno
    obtain ⟨rfl, rfl⟩ := hkv c v h
    exact absurd (List.mem_singleton.mpr rfl) hno
  · intro c v h hno
    obtain ⟨rfl, rfl⟩ := hkv c v h
    exact absurd (List.mem_singleton.mpr rfl) hno
  · intro c v h
    obtain ⟨rfl, rfl⟩ := hkv c v h
    exact Nat.zero_le _

/-- The astar loop returns a shortest valid path when one exists, and the
empty list exactly when none does. -/
theorem astarLoop_correct (ms : MinSel) {g : Grid} {s t : Cell}
    (hsize : boxCard g + 2 < 1000000) :
    ∀ (fuel : ℕ) (op : List Cell) (came : List (Cell × Cell))
      (gm fm : List (Cell × ℕ)),
      AInv g s t op came gm fm →
      boxCard g + 1 - closedCardA gm op < fuel →
      ((astarLoop ms g s t fuel op came gm fm = [] →
          ∀ m, ¬ AReach g s t m t) ∧
       (astarLoop ms g s t fuel op came gm fm ≠ [] →
          ValidP g s t (astarLoop ms g s t fuel op came gm fm) ∧
          ∀ m, AReach g s t m t →
            (astarLoop ms g s t fuel op came gm fm).length ≤ m + 1)) := by
  intro fuel
  induction fuel with
  | zero =>
    intro op came gm fm inv hmeas
    exact absurd hmeas (by omega)
  | succ fuel ih =>
    intro op came gm fm inv hmeas
    cases op with
    | nil =>
      constructor
      · intro _
        exact ainv_leaf inv
      · intro hnem
        exact absurd rfl hnem
    | cons o1 orest =>
      have hne : o1 :: orest ≠ [] := List.cons_ne_nil _ _
      obtain ⟨cur, hcurdef⟩ : ∃ c, c = ms.sel (o1 :: orest)
          (fun c => (alookup fm c).getD 10000000) := ⟨_, rfl⟩
      by_cases hct : cur = t
      · have hmem : cur ∈ o1 :: orest := by
          rw [hcurdef]
          exact ms.sel_mem (o1 :: orest) _ hne
        obtain ⟨vcur, hvcur⟩ :=
          Option.isSome_iff_exists.mp (inv.openKey cur hmem)
        have hpop := ainv_popOpt ms inv hne cur hcurdef hvcur
        obtain ⟨hr1, hr2, hr3, hr4, hr5⟩ := rebuild_valid inv.sKey inv.cameS
          inv.cameG inv.cameTotal inv.domOk vcur cur vcur hvcur (le_refl vcur)
        have hres : astarLoop ms g s t (fuel + 1) (o1 :: orest) came gm fm =
            rebuild came vcur cur := by
          simp only [astarLoop]
          rw [← hcurdef, if_pos hct, hvcur]
          simp only [Option.getD_some]
        rw [hres]
        constructor
        · intro hemp
          rw [hemp] at hr1
          simp at hr1
        · intro _
          refine ⟨⟨hr1, ?_, hr3, hr4⟩, ?_⟩
          · rw [← hct]
            exact hr2
          · intro m hm
            have hvm : vcur ≤ m := hpop m (by rw [hct]; exact hm)
            omega
      · obtain ⟨⟨op', came', gm', fm'⟩, hfold⟩ :
            ∃ q : List Cell × List (Cell × Cell) × List (Cell × ℕ) ×
              List (Cell × ℕ),
              (g.neighbors4 cur.1 cur.2).foldl (relaxPush g s t cur)
                ((o1 :: orest).erase cur, came, gm, fm) = q := ⟨_, rfl⟩
        obtain ⟨inv', hlo, hhi⟩ :=
          ainv_step ms hsize inv hne cur hcurdef hct hfold
        have hmem : cur ∈ o1 :: orest := by
          rw [hcurdef]
          exact ms.sel_mem (o1 :: orest) _ hne
        have hclt := closedCardA_lt inv.domOk cur hmem (inv.openKey cur hmem)
        have hmeas' : boxCard g + 1 - closedCardA gm' op' < fuel := by
          omega
        have hres : astarLoop ms g s t (fuel + 1) (o1 :: orest) came gm fm =
            astarLoop ms g s t fuel op' came' gm' fm' := by
          simp only [astarLoop]
          rw [← hcurdef, if_neg hct, hfold]
        rw [hres]
        exact ih op' came' gm' fm' inv' hmeas'

/-- **C4.** For every frontier-scan order, every grid whose in-bounds
cell count is below the code's `1_000_000` no-path sentinel (every grid
the game builds is 40×25), and every start and goal: `astar` with no
`max_len` returns `[start]` when start = goal; otherwise its result is
empty exactly when no valid path exists, and a nonempty result is itself
a valid path — 4-connected from start to goal, every cell after the
first in bounds, terrain-walkable and unoccupied except that start and
goal are exempt from the occupancy test — of minimal length. -/
theorem astar_spec (ms : MinSel) (g : Grid) (s t : Cell)
    (hsize : boxCard g + 2 < 1000000) :
    (s = t → astar ms g s t none = [s]) ∧
    (s ≠ t →
      ((astar ms g s t none = [] → ∀ p, ¬ ValidP g s t p) ∧
       (astar ms g s t none ≠ [] →
         ValidP g s t (astar ms g s t none) ∧
         ∀ p, ValidP g s t p →
           (astar ms g s t none).length ≤ p.length))) := by
  constructor
  · intro hst
    unfold astar
    rw [if_pos hst]
  · intro hst
    by_cases hgood : g.inBounds t.1 t.2 = true ∧ g.walkable t.2 t.1 = true
    · have hres : astar ms g s t none =
          astarLoop ms g s t ((g.w * g.h).toNat + 2) [s] [] [(s, 0)]
            [(s, manhattan s t)] := by
        unfold astar
        rw [if_neg hst, if_neg (not_not_intro hgood)]
      have hmeas : boxCard g + 1 - closedCardA [(s, 0)] [s] <
          (g.w * g.h).toNat + 2 := by
        have h1 := closedCardA_init s 0
        have h2 := boxCard_le_wh g
        omega
      obtain ⟨hA, hB⟩ := astarLoop_correct ms hsize ((g.w * g.h).toNat + 2)
        [s] [] [(s, 0)] [(s, manhattan s t)] (ainv_init hst) hmeas
      rw [hres]
      constructor
      · intro hemp p hp
        exact hA hemp (p.length - 1) (validP_aReach hp)
      · intro hnem
        obtain ⟨hv, hopt⟩ := hB hnem
        refine ⟨hv, ?_⟩
        intro p hp
        have hx := hopt (p.length - 1) (validP_aReach hp)
        have hppos := validP_length_pos hp
        omega
    · have hres : astar ms g s t none = [] := by
        unfold astar
        rw [if_neg hst, if_pos hgood]
      rw [hres]
      constructor
      · intro _ p hp
        have hok := validP_goal_ok hst hp
        exact hgood ⟨hok.1, hok.2.1⟩
      · intro hnem
        exact absurd rfl hnem

/-- A 3×3 fully open grid. -/
def gridOpen3 : Grid :=
  ⟨3, 3, fun _ _ => true, fun _ _ => false, fun _ => none, ∅, ∅⟩

/-- Closed instantiation of `astar_spec` on the 3×3 open grid with start
`(0,0)` and goal `(2,2)`. -/
theorem astar_spec_witness :
    (((0, 0) : Cell) = ((2, 2) : Cell) →
      astar firstMinSel gridOpen3 (0, 0) (2, 2) none = [(0, 0)]) ∧
    (((0, 0) : Cell) ≠ ((2, 2) : Cell) →
      ((astar firstMinSel gridOpen3 (0, 0) (2, 2) none = [] →
          ∀ p, ¬ ValidP gridOpen3 (0, 0) (2, 2) p) ∧
       (astar firstMinSel gridOpen3 (0, 0) (2, 2) none ≠ [] →
         ValidP gridOpen3 (0, 0) (2, 2)
           (astar firstMinSel gridOpen3 (0, 0) (2, 2) none) ∧
         ∀ p, ValidP gridOpen3 (0, 0) (2, 2) p →
           (astar firstMinSel gridOpen3 (0, 0) (2, 2) none).length ≤
             p.length))) :=
  astar_spec firstMinSel gridOpen3 (0, 0) (2, 2) (by decide)
